import Mathlib

/-!
Verification of the JWT HS256 core of the `Scripts` repository
(`src/MyJsUtils/utils`): base64url codec, HMAC-SHA256, token issuance
(`createJwtHS256.js`) and verification (`verifyJwtHS256.js`).

Modelling conventions (shallow embedding of the JavaScript source):
* A JavaScript string is modelled as a `List Nat` of Unicode code points
  (`JsStr`); the sources only ever build well-formed (surrogate-free)
  strings, and validity hypotheses (`ScalarStr`) make this explicit where
  a theorem needs it.
* Byte sequences (`Uint8Array`) are `List Nat` with every element `< 256`.
* JavaScript numbers appearing in the core (`iat`, `exp`, `ttlSeconds`,
  `Date.now`-derived seconds) are integers in every use; they are
  modelled as `Int`.  The JSON model (`Json`) carries `Int` for
  integer-valued numbers, plus exact representations of the remaining
  binary64 values (non-integral finite doubles as the exact rational
  each denotes, and the two infinities), which adversarial token
  payloads can denote through fraction/exponent numerals.
* `Date.now()` is an ambient input: the functions take the current Unix
  time in whole seconds (`Math.floor(Date.now() / 1000)` in the source)
  as an explicit `now : Int` parameter.
* Fallible operations (`atob`, `JSON.parse`, property access on `null`,
  and the `throw`s in `verifyJwtHS256`) are modelled with `Option` /
  `Except`.  The distinct JavaScript exceptions are kept distinct:
  the source's own `Error("Malformed token")`, `Error("Bad signature")`,
  `Error("Expired token")` versus the native `InvalidCharacterError`
  (from `atob`), `SyntaxError` (from `JSON.parse`) and `TypeError`
  (property access on `null`).
-/

/-- A JavaScript string, as its list of Unicode code points. -/
abbrev JsStr := List Nat

/-- A byte sequence (`Uint8Array` contents). -/
abbrev Bytes := List Nat

/-- Every element is a valid byte. -/
def ValidBytes (b : Bytes) : Prop := ∀ x ∈ b, x < 256

instance : DecidablePred ValidBytes := fun b =>
  inferInstanceAs (Decidable (∀ x ∈ b, x < 256))

/-- Every code point is a Unicode scalar value (no surrogates), as holds
for any well-formed JavaScript string. -/
def ScalarStr (s : JsStr) : Prop :=
  ∀ c ∈ s, c < 0x110000 ∧ ¬ (0xD800 ≤ c ∧ c ≤ 0xDFFF)

instance : DecidablePred ScalarStr := fun s =>
  inferInstanceAs (Decidable (∀ c ∈ s, _ ∧ _))

/-! ## Base64 primitives (`btoa` / `atob`)

`btoa` maps a binary string (char codes < 256) to standard base64 with
padding; `atob` is the WHATWG forgiving-base64 decoder.  They are the
platform primitives used by `base64UrlEncodeBytes.js` and
`base64UrlDecodeToBytes.js`. -/

/-- Code of the base64 digit for a 6-bit value (index into
`A-Z a-z 0-9 + /`). -/
def b64Code (n : Nat) : Nat :=
  if n < 26 then 65 + n
  else if n < 52 then 97 + (n - 26)
  else if n < 62 then 48 + (n - 52)
  else if n = 62 then 43
  else 47

/-- Value of a base64 digit code, `none` for characters outside the
standard base64 alphabet. -/
def b64Val (c : Nat) : Option Nat :=
  if 65 ≤ c ∧ c ≤ 90 then some (c - 65)
  else if 97 ≤ c ∧ c ≤ 122 then some (26 + (c - 97))
  else if 48 ≤ c ∧ c ≤ 57 then some (52 + (c - 48))
  else if c = 43 then some 62
  else if c = 47 then some 63
  else none

/-- Standard base64 of a byte list, chunked three bytes at a time, with
`=` (code 61) padding; this is the output `btoa` produces on a binary
string holding these byte values. -/
def btoa : Bytes → JsStr
  | [] => []
  | [a] => [b64Code (a / 4), b64Code (a % 4 * 16), 61, 61]
  | [a, b] => [b64Code (a / 4), b64Code (a % 4 * 16 + b / 16),
               b64Code (b % 16 * 4), 61]
  | a :: b :: c :: rest =>
      b64Code (a / 4) :: b64Code (a % 4 * 16 + b / 16) ::
      b64Code (b % 16 * 4 + c / 64) :: b64Code (c % 64) :: btoa rest

/-- ASCII whitespace stripped by forgiving-base64 decode. -/
def isB64Ws (c : Nat) : Bool := c = 9 ∨ c = 10 ∨ c = 12 ∨ c = 13 ∨ c = 32

/-- Decode a list of 6-bit values into bytes (the bit-reassembly loop of
forgiving-base64); a trailing group of one digit is an error. -/
def b64Assemble : List Nat → Option Bytes
  | [] => some []
  | [_] => none
  | [a, b] => some [a * 4 + b / 16]
  | [a, b, c] => some [a * 4 + b / 16, b % 16 * 16 + c / 4]
  | a :: b :: c :: d :: rest =>
      (b64Assemble rest).map fun r =>
        (a * 4 + b / 16) :: (b % 16 * 16 + c / 4) :: (c % 4 * 64 + d) :: r

/-- Map each character to its base64 value, failing on any character
outside the alphabet. -/
def b64Vals : List Nat → Option (List Nat)
  | [] => some []
  | c :: rest => do
      let v ← b64Val c
      let vs ← b64Vals rest
      pure (v :: vs)

/-- WHATWG forgiving-base64 decode, the behaviour of the platform `atob`:
strip ASCII whitespace; if the length is a multiple of 4, drop up to two
trailing `=`; fail when the remaining length is `1 mod 4` or any
character is outside the base64 alphabet; then reassemble bits. -/
def atob (s : JsStr) : Option Bytes :=
  let t := s.filter (fun c => !isB64Ws c)
  let t := if t.length % 4 == 0 then
      if t.getLast? = some 61 then
        let t := t.dropLast
        if t.getLast? = some 61 then t.dropLast else t
      else t
    else t
  if t.length % 4 == 1 then none
  else (b64Vals t).bind b64Assemble

/-! ## The repository's base64url codec

`base64UrlEncodeBytes.js` builds a binary string from the bytes, calls
`btoa`, substitutes `+` with `-` and `/` with `_` globally, and strips
all trailing `=`.  `base64UrlDecodeToBytes` (in `base64UrlEncodeJson.js`)
reverses the two substitutions, appends the slice of the string `"==="`
starting at index `(b64url.length + 3) % 4`, calls `atob`, and reads the
char codes of the result back as bytes. -/

/-- The two global substitutions of `base64UrlEncodeBytes`:
`+` (43) becomes `-` (45) and `/` (47) becomes `_` (95). -/
def b64UrlSubst (s : JsStr) : JsStr :=
  s.map fun c => if c = 43 then 45 else if c = 47 then 95 else c

/-- The reverse substitutions of `base64UrlDecodeToBytes`:
`-` (45) becomes `+` (43) and `_` (95) becomes `/` (47). -/
def b64UrlUnsubst (s : JsStr) : JsStr :=
  s.map fun c => if c = 45 then 43 else if c = 95 then 47 else c

/-- Strip all trailing `=` (61), the effect of `.replace(/=+$/g, "")`. -/
def stripTrailingEq (s : JsStr) : JsStr :=
  ((s.reverse).dropWhile (fun c => c == 61)).reverse

/-- The padding suffix `"===".slice((len + 3) % 4)` appended by
`base64UrlDecodeToBytes` for an input of length `len`. -/
def b64Padding (len : Nat) : JsStr :=
  List.replicate (3 - (len + 3) % 4) 61

/-- `base64UrlEncodeBytes`: standard base64 via `btoa`, then `+`→`-`,
`/`→`_`, and trailing `=` stripped. -/
def base64UrlEncodeBytes (bytes : Bytes) : JsStr :=
  stripTrailingEq (b64UrlSubst (btoa bytes))

/-- `base64UrlDecodeToBytes`: reverse the substitutions, restore padding
to a multiple of four characters, and decode with `atob`; `none` models
the `InvalidCharacterError` thrown by `atob` on bad input. -/
def base64UrlDecodeToBytes (b64url : JsStr) : Option Bytes :=
  atob (b64UrlUnsubst b64url ++ b64Padding b64url.length)

/-! ## UTF-8 (`TextEncoder` / `TextDecoder`)

`TextEncoder().encode` UTF-8-encodes a string; a JavaScript string is
well-formed UTF-16, whose code points are Unicode scalar values (lone
surrogates are replaced by U+FFFD, the same branch that makes the model
total on out-of-range input).  `TextDecoder().decode` is the WHATWG UTF-8
decoder in its default non-fatal mode: invalid sequences decode to U+FFFD
replacement characters instead of throwing. -/

/-- UTF-8 bytes of a single code point. -/
def utf8EncodeChar (c : Nat) : Bytes :=
  if c < 0x80 then [c]
  else if c < 0x800 then [0xC0 + c / 64, 0x80 + c % 64]
  else if 0xD800 ≤ c ∧ c ≤ 0xDFFF then [0xEF, 0xBF, 0xBD]
  else if c < 0x10000 then [0xE0 + c / 4096, 0x80 + c / 64 % 64, 0x80 + c % 64]
  else if c < 0x110000 then
    [0xF0 + c / 262144, 0x80 + c / 4096 % 64, 0x80 + c / 64 % 64, 0x80 + c % 64]
  else [0xEF, 0xBF, 0xBD]

/-- UTF-8 encoding of a string (`TextEncoder().encode`). -/
def utf8Encode (s : JsStr) : Bytes := (s.map utf8EncodeChar).flatten

/-- WHATWG UTF-8 decode, non-fatal mode (`TextDecoder().decode`): boundary
conditions on the second byte reject overlong forms, surrogates and
out-of-range sequences, emitting U+FFFD and resuming at the offending
byte. -/
def utf8Decode : Bytes → JsStr
  | [] => []
  | b0 :: rest =>
    if b0 < 0x80 then b0 :: utf8Decode rest
    else if 0xC2 ≤ b0 ∧ b0 ≤ 0xDF then
      match rest with
      | b1 :: r2 =>
        if 0x80 ≤ b1 ∧ b1 ≤ 0xBF then
          ((b0 - 0xC0) * 64 + (b1 - 0x80)) :: utf8Decode r2
        else 0xFFFD :: utf8Decode (b1 :: r2)
      | [] => [0xFFFD]
    else if 0xE0 ≤ b0 ∧ b0 ≤ 0xEF then
      match rest with
      | b1 :: r2 =>
        if (if b0 = 0xE0 then 0xA0 else 0x80) ≤ b1 ∧
            b1 ≤ (if b0 = 0xED then 0x9F else 0xBF) then
          match r2 with
          | b2 :: r3 =>
            if 0x80 ≤ b2 ∧ b2 ≤ 0xBF then
              ((b0 - 0xE0) * 4096 + (b1 - 0x80) * 64 + (b2 - 0x80)) :: utf8Decode r3
            else 0xFFFD :: utf8Decode (b2 :: r3)
          | [] => [0xFFFD]
        else 0xFFFD :: utf8Decode (b1 :: r2)
      | [] => [0xFFFD]
    else if 0xF0 ≤ b0 ∧ b0 ≤ 0xF4 then
      match rest with
      | b1 :: r2 =>
        if (if b0 = 0xF0 then 0x90 else 0x80) ≤ b1 ∧
            b1 ≤ (if b0 = 0xF4 then 0x8F else 0xBF) then
          match r2 with
          | b2 :: r3 =>
            if 0x80 ≤ b2 ∧ b2 ≤ 0xBF then
              match r3 with
              | b3 :: r4 =>
                if 0x80 ≤ b3 ∧ b3 ≤ 0xBF then
                  ((b0 - 0xF0) * 262144 + (b1 - 0x80) * 4096 + (b2 - 0x80) * 64 +
                    (b3 - 0x80)) :: utf8Decode r4
                else 0xFFFD :: utf8Decode (b3 :: r4)
              | [] => [0xFFFD]
            else 0xFFFD :: utf8Decode (b2 :: r3)
          | [] => [0xFFFD]
        else 0xFFFD :: utf8Decode (b1 :: r2)
      | [] => [0xFFFD]
    else 0xFFFD :: utf8Decode rest
termination_by l => l.length
decreasing_by all_goals (simp_wf <;> omega)

/-! ## JSON model

`JSON.stringify` / `JSON.parse` are platform primitives.  JavaScript
numbers are IEEE-754 binary64 values; the model carries them in three
exact forms: `num i` for an integer-valued number (every number the core
produces — `iat`, `exp`, `ttlSeconds` sums — is an integer well within
the double-precision safe range), `numR q` for a finite non-integral
double, carried as the exact rational value the double denotes, and
`numInf b` for `Infinity` (`true`) / `-Infinity` (`false`).  `JSON.parse`
is modelled on the full RFC 8259 grammar: optional whitespace around
every token, the leading-zero rule on numerals, and fraction/exponent
parts; a numeral with a fraction or exponent part is converted to the
nearest binary64 value exactly as the platform does (round half to even,
subnormals on the `2^-1074` grid, overflow to `Infinity`), while a plain
integer numeral is kept at its exact integer value (the platform would
round magnitudes beyond `2^53` to the nearest double; every integer the
repository handles is far inside the safe range).  Object member lists
carry JavaScript object semantics: keys are unique, and assigning an
existing key updates its value in place while a new key is appended
(`jsObjSet`). -/

inductive Json where
  | null : Json
  | bool : Bool → Json
  | num : Int → Json
  | numR : ℚ → Json
  | numInf : Bool → Json
  | str : JsStr → Json
  | arr : List Json → Json
  | obj : List (JsStr × Json) → Json

/-- JavaScript property assignment on an object literal: an existing key
keeps its position and gets the new value, a fresh key is appended. -/
def jsObjSet (kvs : List (JsStr × Json)) (k : JsStr) (v : Json) :
    List (JsStr × Json) :=
  if (kvs.map Prod.fst).contains k then
    kvs.map fun kv => if kv.1 = k then (k, v) else kv
  else kvs ++ [(k, v)]

/-- Property lookup on an object member list (keys are unique, so the
first match is the JavaScript value). -/
def jsObjGet (kvs : List (JsStr × Json)) (k : JsStr) : Option Json :=
  (kvs.find? fun kv => kv.1 == k).map Prod.snd

/-- Decimal digit codes of a natural number, most significant first. -/
def natDigits (n : Nat) : JsStr :=
  if h : n < 10 then [48 + n]
  else natDigits (n / 10) ++ [48 + n % 10]
termination_by n
decreasing_by simp_wf; omega

/-- Decimal string of an integer, as `JSON.stringify` prints the integral
numbers the core uses. -/
def intToStr (i : Int) : JsStr :=
  if i < 0 then 45 :: natDigits i.natAbs else natDigits i.toNat

/-- Lower-case hex digit code. -/
def hexDigit (n : Nat) : Nat := if n < 10 then 48 + n else 87 + n

/-- JSON string escaping of one code point, as `JSON.stringify` performs
it: `"` and `\` are backslash-escaped, the named control escapes are used
where they exist, other control characters become `\u00XX`, everything
else is copied verbatim. -/
def escapeChar (c : Nat) : JsStr :=
  if c = 34 then [92, 34]
  else if c = 92 then [92, 92]
  else if c = 8 then [92, 98]
  else if c = 9 then [92, 116]
  else if c = 10 then [92, 110]
  else if c = 12 then [92, 102]
  else if c = 13 then [92, 114]
  else if c < 32 then [92, 117, 48, 48, hexDigit (c / 16), hexDigit (c % 16)]
  else [c]

/-- A JSON string literal: quote, escaped characters, quote. -/
def quoteStr (s : JsStr) : JsStr := 34 :: (s.map escapeChar).flatten ++ [34]

mutual

/-- `JSON.stringify` on the modelled values (an object's members print in
list order, matching JavaScript insertion order).  A non-finite number
prints as `null`, exactly as `JSON.stringify(Infinity)` does.  A
non-integral number is never produced by the repository and is excluded
by `Json.wfB`, which every serialization theorem assumes; the placeholder
below prints its floor and does not model the platform's
shortest-round-trip decimal printing. -/
def jsonStringify : Json → JsStr
  | .null => [110, 117, 108, 108]
  | .bool true => [116, 114, 117, 101]
  | .bool false => [102, 97, 108, 115, 101]
  | .num i => intToStr i
  | .numR q => intToStr q.floor
  | .numInf _ => [110, 117, 108, 108]
  | .str s => quoteStr s
  | .arr vs => 91 :: stringifyItems vs ++ [93]
  | .obj kvs => 123 :: stringifyMembers kvs ++ [125]

/-- Comma-separated serializations of array items. -/
def stringifyItems : List Json → JsStr
  | [] => []
  | [v] => jsonStringify v
  | v :: rest => jsonStringify v ++ 44 :: stringifyItems rest

/-- Comma-separated `"key":value` serializations of object members. -/
def stringifyMembers : List (JsStr × Json) → JsStr
  | [] => []
  | [kv] => quoteStr kv.1 ++ 58 :: jsonStringify kv.2
  | kv :: rest => quoteStr kv.1 ++ 58 :: jsonStringify kv.2 ++ 44 :: stringifyMembers rest

end

mutual

/-- Well-formedness of a modelled JSON value: every string is a scalar
string, every object's keys are distinct (as they are in any value a
JavaScript program builds), and every number is an integer-valued finite
double — the only numbers the repository and the claims about it
construct. -/
def Json.wfB : Json → Bool
  | .null => true
  | .bool _ => true
  | .num _ => true
  | .numR _ => false
  | .numInf _ => false
  | .str s => decide (ScalarStr s)
  | .arr vs => Json.wfItemsB vs
  | .obj kvs => Json.wfMembersB kvs && decide ((kvs.map Prod.fst).Nodup)

/-- Well-formedness of a list of array items. -/
def Json.wfItemsB : List Json → Bool
  | [] => true
  | v :: vs => Json.wfB v && Json.wfItemsB vs

/-- Well-formedness of a list of object members. -/
def Json.wfMembersB : List (JsStr × Json) → Bool
  | [] => true
  | kv :: rest => decide (ScalarStr kv.1) && Json.wfB kv.2 && Json.wfMembersB rest

end

/-- Well-formed JSON value (propositional form). -/
def WfJson (v : Json) : Prop := Json.wfB v = true

/-- Value of a hex digit code (accepting both cases), `none` otherwise. -/
def hexVal (c : Nat) : Option Nat :=
  if 48 ≤ c ∧ c ≤ 57 then some (c - 48)
  else if 97 ≤ c ∧ c ≤ 102 then some (c - 87)
  else if 65 ≤ c ∧ c ≤ 70 then some (c - 55)
  else none

/-- Code point for a single-character JSON escape. -/
def unescapeChar (e : Nat) : Option Nat :=
  if e = 34 then some 34
  else if e = 92 then some 92
  else if e = 47 then some 47
  else if e = 98 then some 8
  else if e = 116 then some 9
  else if e = 110 then some 10
  else if e = 102 then some 12
  else if e = 114 then some 13
  else none

/-- Parse the remainder of a JSON string literal (after the opening
quote), returning the decoded characters and the unconsumed input. -/
def parseStringRest : JsStr → Option (JsStr × JsStr)
  | [] => none
  | c :: r =>
    if c = 34 then some ([], r)
    else if c = 92 then
      match r with
      | [] => none
      | e :: r2 =>
        if e = 117 then
          match r2 with
          | h1 :: h2 :: h3 :: h4 :: r3 =>
            (hexVal h1).bind fun d1 =>
              (hexVal h2).bind fun d2 =>
                (hexVal h3).bind fun d3 =>
                  (hexVal h4).bind fun d4 =>
                    (parseStringRest r3).map fun p =>
                      ((d1 * 4096 + d2 * 256 + d3 * 16 + d4) :: p.1, p.2)
          | _ => none
        else
          (unescapeChar e).bind fun u =>
            (parseStringRest r2).map fun p => (u :: p.1, p.2)
    else if c < 32 then none
    else (parseStringRest r).map fun p => (c :: p.1, p.2)

/-- Decimal digit code. -/
def isDigitCode (c : Nat) : Bool := 48 ≤ c ∧ c ≤ 57

/-- Numeric value of a digit-code string. -/
def digitsVal (ds : JsStr) : Nat := ds.foldl (fun a c => a * 10 + (c - 48)) 0

/-- JSON whitespace, as `JSON.parse` skips it around tokens: space, tab,
line feed, carriage return. -/
def isJsonWs (c : Nat) : Bool := c = 32 ∨ c = 9 ∨ c = 10 ∨ c = 13

/-- Drop leading JSON whitespace. -/
def skipWs : JsStr → JsStr
  | [] => []
  | c :: t => if isJsonWs c then skipWs t else c :: t

/-- `2^e` as an exact rational, for an integer exponent. -/
def q2pow (e : Int) : ℚ :=
  if 0 ≤ e then ((2 ^ e.toNat : ℕ) : ℚ) else 1 / ((2 ^ (-e).toNat : ℕ) : ℚ)

/-- `10^e` as an exact rational, for an integer exponent. -/
def q10pow (e : Int) : ℚ :=
  if 0 ≤ e then ((10 ^ e.toNat : ℕ) : ℚ) else 1 / ((10 ^ (-e).toNat : ℕ) : ℚ)

/-- The binary exponent of a positive rational: the largest `e` with
`2^e ≤ q` (the first estimate from the numerator and denominator bit
lengths is off by at most one and is corrected by direct comparison). -/
def log2floorPos (q : ℚ) : Int :=
  let e0 : Int := (Nat.log2 q.num.toNat : Int) - (Nat.log2 q.den : Int)
  if q2pow (e0 + 1) ≤ q then e0 + 1
  else if q2pow e0 ≤ q then e0
  else e0 - 1

/-- Nearest integer to a rational, ties to even — the IEEE-754 default
rounding direction. -/
def roundHalfEvenQ (x : ℚ) : Int :=
  let n := x.floor
  if x - (n : ℚ) < 1 / 2 then n
  else if (1 : ℚ) / 2 < x - (n : ℚ) then n + 1
  else if n % 2 = 0 then n else n + 1

/-- Round a positive rational to the nearest IEEE-754 binary64 value
(round half to even), returned as the exact rational that double
denotes; `none` is overflow to `Infinity`.  Values below the normal
range round on the fixed subnormal grid `2^-1074`. -/
def roundDoublePos (q : ℚ) : Option ℚ :=
  let e := log2floorPos q
  let g : Int := if e - 52 < -1074 then -1074 else e - 52
  let r : ℚ := (roundHalfEvenQ (q / q2pow g) : ℚ) * q2pow g
  if q2pow 1024 ≤ r then none else some r

/-- The JavaScript number denoted by a numeral with exact decimal value
`q`: the nearest binary64 value, `Infinity` on overflow, with an
integer-valued double canonicalized to `num` (in JavaScript `1e3` and
`1000` are the same number, and `-0` compares equal to `0`). -/
def jsNumValue (q : ℚ) : Json :=
  if q = 0 then .num 0
  else if 0 < q then
    match roundDoublePos q with
    | none => .numInf true
    | some d => if d.den = 1 then .num d.num else .numR d
  else
    match roundDoublePos (-q) with
    | none => .numInf false
    | some d => if d.den = 1 then .num (-d.num) else .numR (-d)

/-- Negation of a JavaScript number value (the leading `-` of a JSON
numeral). -/
def jsonNegate : Json → Json
  | .num n => .num (-n)
  | .numR q => .numR (-q)
  | .numInf b => .numInf (!b)
  | v => v

/-- The optional fraction part `. digits` of a JSON numeral: the digit
string (empty when the part is absent) and the unconsumed input; `none`
when a dot is not followed by at least one digit. -/
def parseFracPart (s : JsStr) : Option (JsStr × JsStr) :=
  if s.head? = some 46 then
    let fs := s.tail.takeWhile isDigitCode
    if fs = [] then none else some (fs, s.tail.drop fs.length)
  else some ([], s)

/-- The optional exponent part `[eE] [+-]? digits` of a JSON numeral: its
signed value (`0` when the part is absent) and the unconsumed input;
`none` when the marker is not followed by at least one digit. -/
def parseExpPart (s : JsStr) : Option (Int × JsStr) :=
  if s.head? = some 101 ∨ s.head? = some 69 then
    let t := s.tail
    let (neg, t2) :=
      if t.head? = some 43 then (false, t.tail)
      else if t.head? = some 45 then (true, t.tail)
      else (false, t)
    let es := t2.takeWhile isDigitCode
    if es = [] then none
    else some (if neg then -(digitsVal es : Int) else (digitsVal es : Int),
      t2.drop es.length)
  else some (0, s)

/-- Exact decimal value of an unsigned numeral with integer digits `ds`,
fraction digits `fs` and exponent `ex`. -/
def numeralValQ (ds fs : JsStr) (ex : Int) : ℚ :=
  ((digitsVal ds : ℚ) + (digitsVal fs : ℚ) / ((10 ^ fs.length : ℕ) : ℚ)) * q10pow ex

/-- Parse an unsigned JSON numeral at the head of the input, per the
RFC 8259 grammar `int frac? exp?` with its leading-zero rule (`0` stands
alone; `07` is a syntax error, as in `JSON.parse`).  A numeral with a
fraction or exponent part denotes the nearest binary64 value; a plain
integer numeral keeps its exact integer value. -/
def parseNumberPos (s : JsStr) : Option (Json × JsStr) :=
  let ds := s.takeWhile isDigitCode
  if ds = [] then none
  else if 2 ≤ ds.length ∧ ds.head? = some 48 then none
  else
    let s2 := s.drop ds.length
    if s2.head? = some 46 ∨ s2.head? = some 101 ∨ s2.head? = some 69 then
      match parseFracPart s2 with
      | none => none
      | some (fs, s3) =>
        match parseExpPart s3 with
        | none => none
        | some (ex, s4) => some (jsNumValue (numeralValQ ds fs ex), s4)
    else
      some (.num (digitsVal ds : Nat), s2)

/-- Parse a JSON numeral at the head of the input: an optional minus
sign, then the unsigned grammar. -/
def parseNumber (s : JsStr) : Option (Json × JsStr) :=
  if s.head? = some 45 then
    (parseNumberPos s.tail).map fun p => (jsonNegate p.1, p.2)
  else
    parseNumberPos s

/-- JavaScript object construction from parsed members: later duplicate
keys overwrite earlier values in place, as `JSON.parse` produces. -/
def objFromPairs (pairs : List (JsStr × Json)) : List (JsStr × Json) :=
  pairs.foldl (fun acc kv => jsObjSet acc kv.1 kv.2) []

mutual

/-- Parse one JSON value at the head of the input, skipping leading
whitespace (fuelled recursion; the fuel only bounds nesting and is in
surplus at every use). -/
def parseValue : Nat → JsStr → Option (Json × JsStr)
  | 0, _ => none
  | Nat.succ fuel, s =>
    match skipWs s with
    | [] => none
    | c :: rest =>
      if c = 110 then
        match rest with
        | 117 :: 108 :: 108 :: r => some (.null, r)
        | _ => none
      else if c = 116 then
        match rest with
        | 114 :: 117 :: 101 :: r => some (.bool true, r)
        | _ => none
      else if c = 102 then
        match rest with
        | 97 :: 108 :: 115 :: 101 :: r => some (.bool false, r)
        | _ => none
      else if c = 34 then
        (parseStringRest rest).map fun p => (.str p.1, p.2)
      else if c = 45 ∨ (48 ≤ c ∧ c ≤ 57) then
        parseNumber (c :: rest)
      else if c = 91 then
        if (skipWs rest).head? = some 93 then some (.arr [], (skipWs rest).tail)
        else (parseItems fuel rest).map fun p => (.arr p.1, p.2)
      else if c = 123 then
        if (skipWs rest).head? = some 125 then some (.obj [], (skipWs rest).tail)
        else (parseMembers fuel rest).map fun p => (.obj (objFromPairs p.1), p.2)
      else none

/-- Parse array items up to and including the closing bracket, skipping
whitespace around the separators. -/
def parseItems : Nat → JsStr → Option (List Json × JsStr)
  | 0, _ => none
  | Nat.succ fuel, s =>
    (parseValue fuel s).bind fun p =>
      match skipWs p.2 with
      | 44 :: r2 => (parseItems fuel r2).map fun q => (p.1 :: q.1, q.2)
      | 93 :: r2 => some ([p.1], r2)
      | _ => none

/-- Parse object members up to and including the closing brace, skipping
whitespace around the keys and separators. -/
def parseMembers : Nat → JsStr → Option (List (JsStr × Json) × JsStr)
  | 0, _ => none
  | Nat.succ fuel, s =>
    match skipWs s with
    | 34 :: r =>
      (parseStringRest r).bind fun pk =>
        match skipWs pk.2 with
        | 58 :: r2 =>
          (parseValue fuel r2).bind fun pv =>
            match skipWs pv.2 with
            | 44 :: r3 => (parseMembers fuel r3).map fun q => ((pk.1, pv.1) :: q.1, q.2)
            | 125 :: r3 => some ([(pk.1, pv.1)], r3)
            | _ => none
        | _ => none
    | _ => none

end

/-- `JSON.parse`: parse one value with ample fuel and require the rest of
the input to be whitespace. -/
def jsonParse (s : JsStr) : Option Json :=
  match parseValue (s.length + 1) s with
  | some (v, rest) => if skipWs rest = [] then some v else none
  | none => none

/-! ## JSON parse inverts stringify -/

/-- Input positions at which a JSON value may legally stop: end of input
or a separator/closer, as produced by the serializer. -/
def IsBoundary (s : JsStr) : Prop :=
  s = [] ∨ ∃ c t, s = c :: t ∧ (c = 44 ∨ c = 93 ∨ c = 125)

mutual

/-- Fuel needed by `parseValue` to parse the serialization of a value. -/
def jweight : Json → Nat
  | .null => 1
  | .bool _ => 1
  | .num _ => 1
  | .numR _ => 1
  | .numInf _ => 1
  | .str _ => 1
  | .arr vs => 1 + jweightItems vs
  | .obj kvs => 1 + jweightMembers kvs

/-- Fuel needed by `parseItems`. -/
def jweightItems : List Json → Nat
  | [] => 1
  | [v] => 1 + jweight v
  | v :: rest => 1 + jweight v + jweightItems rest

/-- Fuel needed by `parseMembers`. -/
def jweightMembers : List (JsStr × Json) → Nat
  | [] => 1
  | [kv] => 1 + jweight kv.2
  | kv :: rest => 1 + jweight kv.2 + jweightMembers rest

end

/-! ## SHA-256 and HMAC-SHA-256 (the `crypto.subtle` primitives)

`hmacSha256Sign.js` and `hmacSha256Verify.js` call the WebCrypto HMAC
with SHA-256; the construction below is FIPS 180-4 SHA-256 and RFC 2104
HMAC over byte lists, with 32-bit words as naturals reduced mod `2^32`. -/

/-- Truncate to a 32-bit word. -/
def w32 (n : Nat) : Nat := n % 4294967296

/-- Right rotation of a 32-bit word. -/
def rotr32 (x n : Nat) : Nat := w32 (x / 2 ^ n + x % 2 ^ n * 2 ^ (32 - n))

def ch32 (x y z : Nat) : Nat := (x &&& y) ^^^ ((x ^^^ 4294967295) &&& z)

def maj32 (x y z : Nat) : Nat := (x &&& y) ^^^ (x &&& z) ^^^ (y &&& z)

def bigSigma0 (x : Nat) : Nat := rotr32 x 2 ^^^ rotr32 x 13 ^^^ rotr32 x 22

def bigSigma1 (x : Nat) : Nat := rotr32 x 6 ^^^ rotr32 x 11 ^^^ rotr32 x 25

def smallSigma0 (x : Nat) : Nat := rotr32 x 7 ^^^ rotr32 x 18 ^^^ x / 8

def smallSigma1 (x : Nat) : Nat := rotr32 x 17 ^^^ rotr32 x 19 ^^^ x / 1024

/-- SHA-256 round constants (FIPS 180-4 section 4.2.2, in decimal). -/
def sha256K : List Nat :=
  [
    1116352408, 1899447441, 3049323471, 3921009573, 961987163, 1508970993,
    2453635748, 2870763221, 3624381080, 310598401, 607225278, 1426881987,
    1925078388, 2162078206, 2614888103, 3248222580, 3835390401, 4022224774,
    264347078, 604807628, 770255983, 1249150122, 1555081692, 1996064986,
    2554220882, 2821834349, 2952996808, 3210313671, 3336571891, 3584528711,
    113926993, 338241895, 666307205, 773529912, 1294757372, 1396182291,
    1695183700, 1986661051, 2177026350, 2456956037, 2730485921, 2820302411,
    3259730800, 3345764771, 3516065817, 3600352804, 4094571909, 275423344,
    430227734, 506948616, 659060556, 883997877, 958139571, 1322822218,
    1537002063, 1747873779, 1955562222, 2024104815, 2227730452, 2361852424,
    2428436474, 2756734187, 3204031479, 3329325298]

/-- SHA-256 initial hash state (FIPS 180-4 section 5.3.3, in decimal). -/
def sha256Init : List Nat :=
  [
    1779033703, 3144134277, 1013904242, 2773480762, 1359893119, 2600822924,
    528734635, 1541459225]

/-- Big-endian 32-bit words from bytes (input length a multiple of 4). -/
def bytesToWords : Bytes → List Nat
  | a :: b :: c :: d :: rest =>
      (a * 16777216 + b * 65536 + c * 256 + d) :: bytesToWords rest
  | _ => []

/-- Append one extended message-schedule word. -/
def sha256ExtendStep (w : List Nat) : List Nat :=
  w ++ [w32 (smallSigma1 (w.getD (w.length - 2) 0) + w.getD (w.length - 7) 0 +
    smallSigma0 (w.getD (w.length - 15) 0) + w.getD (w.length - 16) 0)]

/-- Message schedule: 16 block words extended to 64. -/
def sha256Schedule (block : List Nat) : List Nat :=
  sha256ExtendStep^[48] block

/-- One SHA-256 round on the working variables. -/
def sha256Round (st : Nat × Nat × Nat × Nat × Nat × Nat × Nat × Nat) (kw : Nat × Nat) :
    Nat × Nat × Nat × Nat × Nat × Nat × Nat × Nat :=
  match st with
  | (a, b, c, d, e, f, g, h) =>
    let t1 := w32 (h + bigSigma1 e + ch32 e f g + kw.1 + kw.2)
    let t2 := w32 (bigSigma0 a + maj32 a b c)
    (w32 (t1 + t2), a, b, c, w32 (d + t1), e, f, g)

/-- Compress one 16-word block into the hash state. -/
def sha256Compress (H : List Nat) (block : List Nat) : List Nat :=
  let W := sha256Schedule block
  let st := (List.zip sha256K W).foldl sha256Round
    (H.getD 0 0, H.getD 1 0, H.getD 2 0, H.getD 3 0,
     H.getD 4 0, H.getD 5 0, H.getD 6 0, H.getD 7 0)
  match st with
  | (a, b, c, d, e, f, g, h) =>
    [w32 (H.getD 0 0 + a), w32 (H.getD 1 0 + b), w32 (H.getD 2 0 + c),
     w32 (H.getD 3 0 + d), w32 (H.getD 4 0 + e), w32 (H.getD 5 0 + f),
     w32 (H.getD 6 0 + g), w32 (H.getD 7 0 + h)]

/-- Split a word list into 16-word blocks. -/
def wordBlocks : List Nat → List (List Nat)
  | [] => []
  | w :: rest => ((w :: rest).take 16) :: wordBlocks ((w :: rest).drop 16)
termination_by l => l.length
decreasing_by simp_wf; omega

/-- SHA-256 padding: `0x80`, zeros to 56 mod 64, 64-bit big-endian bit
length. -/
def sha256Pad (msg : Bytes) : Bytes :=
  let bitLen := msg.length * 8
  msg ++ 128 :: List.replicate ((64 - (msg.length + 9) % 64) % 64) 0 ++
    [bitLen / 72057594037927936 % 256, bitLen / 281474976710656 % 256,
     bitLen / 1099511627776 % 256, bitLen / 4294967296 % 256,
     bitLen / 16777216 % 256, bitLen / 65536 % 256, bitLen / 256 % 256, bitLen % 256]

/-- Big-endian bytes of a 32-bit word. -/
def wordToBytes (w : Nat) : Bytes :=
  [w / 16777216 % 256, w / 65536 % 256, w / 256 % 256, w % 256]

/-- SHA-256 of a byte list. -/
def sha256 (msg : Bytes) : Bytes :=
  let blocks := wordBlocks (bytesToWords (sha256Pad msg))
  ((blocks.foldl sha256Compress sha256Init).map wordToBytes).flatten

/-- RFC 2104 HMAC-SHA-256: hash an over-long key, zero-pad to the 64-byte
block, then nested hashes with the `0x36`/`0x5c` pads. -/
def hmacSha256 (key msg : Bytes) : Bytes :=
  let k1 := if 64 < key.length then sha256 key else key
  let k0 := k1 ++ List.replicate (64 - k1.length) 0
  sha256 ((k0.map fun b => b ^^^ 92) ++ sha256 ((k0.map fun b => b ^^^ 54) ++ msg))

/-- `hmacSha256Sign.js`: imports the UTF-8 bytes of the secret string as
an HMAC-SHA-256 key and signs the UTF-8 bytes of the data string. -/
def hmacSha256Sign (secret data : JsStr) : Bytes :=
  hmacSha256 (utf8Encode secret) (utf8Encode data)

/-- `hmacSha256Verify.js` (in `corsHeaders.js`): `crypto.subtle.verify`
recomputes the HMAC over the data under the same key and compares it with
the supplied signature bytes. -/
def hmacSha256Verify (secret data : JsStr) (signatureBytes : Bytes) : Bool :=
  hmacSha256Sign secret data == signatureBytes

/-! ## The token codec (`createJwtHS256.js` / `verifyJwtHS256.js`)

`Date.now()` enters as the explicit parameter `now`, standing for
`Math.floor(Date.now() / 1000)` at the moment of the call. -/

/-- `base64UrlEncodeJson.js`: UTF-8-encode `JSON.stringify` of the value,
then base64url-encode the bytes. -/
def base64UrlEncodeJson (obj : Json) : JsStr :=
  base64UrlEncodeBytes (utf8Encode (jsonStringify obj))

/-- The distinct failures `verifyJwtHS256` can surface: its own three
thrown `Error`s, and the three native exceptions that can escape it
(`InvalidCharacterError` from `atob`, `SyntaxError` from `JSON.parse`,
`TypeError` from reading `.exp` off a `null` payload). -/
inductive JwtError where
  | malformedToken : JwtError
  | badSignature : JwtError
  | expiredToken : JwtError
  | invalidCharacterError : JwtError
  | syntaxError : JwtError
  | typeError : JwtError
deriving DecidableEq

/-- `String.prototype.split` on `"."`. -/
def splitOnDot : JsStr → List JsStr
  | [] => [[]]
  | c :: t =>
    if c = 46 then [] :: splitOnDot t
    else
      match splitOnDot t with
      | [] => [[c]]
      | p :: ps => (c :: p) :: ps

/-- Key `"alg"`. -/
def algK : JsStr := [97, 108, 103]

/-- Key `"typ"`. -/
def typK : JsStr := [116, 121, 112]

/-- Key `"iat"`. -/
def iatK : JsStr := [105, 97, 116]

/-- Key `"exp"`. -/
def expK : JsStr := [101, 120, 112]

/-- The fixed header `{alg: "HS256", typ: "JWT"}`. -/
def jwtHeader : Json :=
  .obj [(algK, .str [72, 83, 50, 53, 54]), (typK, .str [74, 87, 84])]

/-- `createJwtHS256.js`: build the header, merge `iat = now` and
`exp = now + ttlSeconds` into the caller's payload (the object-literal
spread `{...payload, iat: now, exp: now + ttlSeconds}`), serialize and
base64url-encode both, sign the dot-joined signing input, and return the
three-part token together with the full payload. -/
def createJwtHS256 (secret : JsStr) (payload : List (JsStr × Json))
    (ttlSeconds : Int) (now : Int) : JsStr × List (JsStr × Json) :=
  let fullPayload := jsObjSet (jsObjSet payload iatK (.num now)) expK
    (.num (now + ttlSeconds))
  let encodedHeader := base64UrlEncodeJson jwtHeader
  let encodedPayload := base64UrlEncodeJson (.obj fullPayload)
  let signingInput := encodedHeader ++ 46 :: encodedPayload
  let sigBytes := hmacSha256Sign secret signingInput
  let encodedSig := base64UrlEncodeBytes sigBytes
  (signingInput ++ 46 :: encodedSig, fullPayload)

/-- `verifyJwtHS256.js`: split on dots (`Malformed token` unless exactly
three parts), decode the signature segment (`atob` may throw), verify the
MAC over the re-derived signing input (`Bad signature` on mismatch),
decode and `JSON.parse` the payload segment (a parse failure escapes as a
native `SyntaxError`), then require a numeric `exp` strictly beyond `now`
(`payload.exp` on a `null` payload throws a native `TypeError`; on any
other non-object it is `undefined`, failing the `typeof` check; all three
modelled number forms have `typeof` number, and `payload.exp <= now` is
the exact double comparison — false for `Infinity`, true for
`-Infinity`). -/
def verifyJwtHS256 (secret token : JsStr) (now : Int) : Except JwtError Json :=
  match splitOnDot token with
  | [h, p, s] =>
    let signingInput := h ++ 46 :: p
    match base64UrlDecodeToBytes s with
    | none => .error .invalidCharacterError
    | some sigBytes =>
      if hmacSha256Verify secret signingInput sigBytes then
        match base64UrlDecodeToBytes p with
        | none => .error .invalidCharacterError
        | some payloadBytes =>
          match jsonParse (utf8Decode payloadBytes) with
          | none => .error .syntaxError
          | some payload =>
            match payload with
            | .null => .error .typeError
            | .obj kvs =>
              match jsObjGet kvs expK with
              | some (.num e) => if e ≤ now then .error .expiredToken else .ok payload
              | some (.numR q) =>
                if q ≤ (now : ℚ) then .error .expiredToken else .ok payload
              | some (.numInf b) => if b then .ok payload else .error .expiredToken
              | _ => .error .expiredToken
            | _ => .error .expiredToken
      else .error .badSignature
  | _ => .error .malformedToken

/-- The payload phase of `verifyJwtHS256` (everything after the signature
check), written separately to state that verification treats the header
segment only as MAC input; compare `verify_splits_phases`. -/
def verifyPayloadPhase (p : JsStr) (now : Int) : Except JwtError Json :=
  match base64UrlDecodeToBytes p with
  | none => .error .invalidCharacterError
  | some payloadBytes =>
    match jsonParse (utf8Decode payloadBytes) with
    | none => .error .syntaxError
    | some payload =>
      match payload with
      | .null => .error .typeError
      | .obj kvs =>
        match jsObjGet kvs expK with
        | some (.num e) => if e ≤ now then .error .expiredToken else .ok payload
        | some (.numR q) =>
          if q ≤ (now : ℚ) then .error .expiredToken else .ok payload
        | some (.numInf b) => if b then .ok payload else .error .expiredToken
        | _ => .error .expiredToken
      | _ => .error .expiredToken

/-- The full payload `{...payload, iat: now, exp: now + ttlSeconds}` that
`createJwtHS256` embeds (its `fullPayload` binding). -/
def jwtFullPayload (payload : List (JsStr × Json)) (ttlSeconds now : Int) :
    List (JsStr × Json) :=
  jsObjSet (jsObjSet payload iatK (.num now)) expK (.num (now + ttlSeconds))

/-- The signing input of `createJwtHS256` (its `signingInput` binding). -/
def jwtSigningInput (payload : List (JsStr × Json)) (ttlSeconds now : Int) : JsStr :=
  base64UrlEncodeJson jwtHeader ++ 46 ::
    base64UrlEncodeJson (.obj (jwtFullPayload payload ttlSeconds now))

/-- Payload segment encoding the four ASCII bytes of the JSON text
`null`. -/
def c3PayloadSeg : JsStr := base64UrlEncodeBytes [110, 117, 108, 108]

/-- A token under secret `"s"` that passes the part-count and signature
checks but whose claims segment decodes to the JSON value `null`. -/
def c3Token : JsStr :=
  base64UrlEncodeJson jwtHeader ++ 46 :: (c3PayloadSeg ++ 46 ::
    base64UrlEncodeBytes (hmacSha256Sign [115]
      (base64UrlEncodeJson jwtHeader ++ 46 :: c3PayloadSeg)))

/-- Payload segment encoding the single ASCII byte of the non-JSON text
`{`. -/
def c8PayloadSeg : JsStr := base64UrlEncodeBytes [123]

/-- A token under secret `"s"` that passes the part-count and signature
checks but whose claims segment does not parse as JSON. -/
def c8Token : JsStr :=
  base64UrlEncodeJson jwtHeader ++ 46 :: (c8PayloadSeg ++ 46 ::
    base64UrlEncodeBytes (hmacSha256Sign [115]
      (base64UrlEncodeJson jwtHeader ++ 46 :: c8PayloadSeg)))

/-! ## Theorems -/

/-! ### Round-trip of the base64url codec -/

theorem b64Code_props : ∀ n, n < 64 →
    b64Code n ≠ 61 ∧ b64Code n ≠ 45 ∧ b64Code n ≠ 95 ∧ b64Code n ≠ 46 ∧
    isB64Ws (b64Code n) = false ∧ b64Val (b64Code n) = some n := by
  decide

theorem dropWhile_of_forall_not {p : Nat → Bool} {l : List Nat}
    (h : ∀ x ∈ l, p x = false) : l.dropWhile p = l := by
  cases l with
  | nil => rfl
  | cons a t =>
    rw [List.dropWhile_cons_of_neg]
    simp [h a (by simp)]

theorem stripTrailingEq_append {xs ys : JsStr} (h : ∀ x ∈ xs, x ≠ 61) :
    stripTrailingEq (xs ++ ys) = xs ++ stripTrailingEq ys := by
  unfold stripTrailingEq
  rw [List.reverse_append, List.dropWhile_append]
  by_cases hy : (ys.reverse.dropWhile (fun c => c == 61)).isEmpty
  · simp only [hy, if_pos]
    rw [dropWhile_of_forall_not (by
      intro x hx
      simp only [beq_eq_false_iff_ne, ne_eq]
      exact h x (List.mem_reverse.mp hx))]
    simp only [List.isEmpty_iff] at hy
    rw [hy, List.reverse_reverse, List.reverse_nil, List.append_nil]
  · simp only [hy, if_neg, Bool.false_eq_true, not_false_iff]
    rw [List.reverse_append, List.reverse_reverse]

theorem stripTrailingEq_replicate (k : Nat) :
    stripTrailingEq (List.replicate k 61) = [] := by
  unfold stripTrailingEq
  rw [List.reverse_replicate, List.dropWhile_eq_nil_iff.mpr]
  · rfl
  · intro x hx
    simp [List.eq_of_mem_replicate hx]

theorem stripTrailingEq_body {xs : JsStr} (k : Nat) (h : ∀ x ∈ xs, x ≠ 61) :
    stripTrailingEq (xs ++ List.replicate k 61) = xs := by
  rw [stripTrailingEq_append h, stripTrailingEq_replicate, List.append_nil]

/-- The map `b64Code` is constant above 63, so every output is hit by an
index below 64. -/
theorem b64Code_saturates (n : Nat) : ∃ m, m < 64 ∧ b64Code n = b64Code m := by
  by_cases h : n < 64
  · exact ⟨n, h, rfl⟩
  · refine ⟨63, by omega, ?_⟩
    unfold b64Code
    split_ifs <;> omega

/-- Structural shape of `btoa` output: a body of base64 digits followed by
at most two `=` characters. -/
theorem btoa_shape (b : Bytes) :
    ∃ body k, k ≤ 2 ∧ btoa b = body ++ List.replicate k 61 ∧
      ∀ c ∈ body, ∃ n, n < 64 ∧ c = b64Code n := by
  induction b using btoa.induct with
  | case1 =>
    exact ⟨[], 0, by simp [btoa]⟩
  | case2 a =>
    refine ⟨[b64Code (a / 4), b64Code (a % 4 * 16)], 2, by omega, by simp [btoa], ?_⟩
    intro c hc
    simp only [List.mem_cons, List.not_mem_nil, or_false] at hc
    rcases hc with h | h <;> rw [h] <;> exact b64Code_saturates _
  | case3 a b =>
    refine ⟨[b64Code (a / 4), b64Code (a % 4 * 16 + b / 16), b64Code (b % 16 * 4)], 1,
      by omega, by simp [btoa], ?_⟩
    intro c hc
    simp only [List.mem_cons, List.not_mem_nil, or_false] at hc
    rcases hc with h | h | h <;> rw [h] <;> exact b64Code_saturates _
  | case4 a b c rest ih =>
    obtain ⟨body, k, hk, heq, hmem⟩ := ih
    refine ⟨b64Code (a / 4) :: b64Code (a % 4 * 16 + b / 16) ::
      b64Code (b % 16 * 4 + c / 64) :: b64Code (c % 64) :: body, k, hk, ?_, ?_⟩
    · simp [btoa, heq]
    · intro x hx
      simp only [List.mem_cons] at hx
      rcases hx with h | h | h | h | h
      · rw [h]; exact b64Code_saturates _
      · rw [h]; exact b64Code_saturates _
      · rw [h]; exact b64Code_saturates _
      · rw [h]; exact b64Code_saturates _
      · exact hmem x h

theorem b64UrlUnsubst_subst {s : JsStr} (h : ∀ c ∈ s, c ≠ 45 ∧ c ≠ 95) :
    b64UrlUnsubst (b64UrlSubst s) = s := by
  induction s with
  | nil => rfl
  | cons a t ih =>
    have ha := h a (by simp)
    have ht : b64UrlUnsubst (b64UrlSubst t) = t := ih fun c hc => h c (by simp [hc])
    simp only [b64UrlSubst, b64UrlUnsubst, List.map_cons] at ht ⊢
    rw [ht]
    by_cases h43 : a = 43
    · simp [h43]
    · by_cases h47 : a = 47
      · simp [h47]
      · simp [h43, h47, ha.1, ha.2]

theorem dropWhile61_map_subst (s : JsStr) :
    (s.map (fun c => if c = 43 then 45 else if c = 47 then 95 else c)).dropWhile
        (fun c => c == 61) =
      (s.dropWhile (fun c => c == 61)).map
        (fun c => if c = 43 then 45 else if c = 47 then 95 else c) := by
  induction s with
  | nil => rfl
  | cons a t ih =>
    by_cases h : a = 61
    · subst h
      simp only [List.map_cons, if_neg (by omega : ¬ (61 : Nat) = 43),
        if_neg (by omega : ¬ (61 : Nat) = 47)]
      rw [List.dropWhile_cons_of_pos (by simp), List.dropWhile_cons_of_pos (by simp)]
      exact ih
    · have hne : (if a = 43 then 45 else if a = 47 then 95 else a) ≠ 61 := by
        split_ifs with h1 h2 <;> omega
      simp only [List.map_cons]
      rw [List.dropWhile_cons_of_neg (by simpa using hne),
        List.dropWhile_cons_of_neg (by simpa using h), List.map_cons]

theorem stripTrailingEq_subst (s : JsStr) :
    stripTrailingEq (b64UrlSubst s) = b64UrlSubst (stripTrailingEq s) := by
  unfold stripTrailingEq b64UrlSubst
  rw [← List.map_reverse, dropWhile61_map_subst, ← List.map_reverse]

theorem getLast?_ne_of_forall {l : JsStr} (h : ∀ x ∈ l, x ≠ 61) :
    l.getLast? ≠ some 61 := by
  intro hc
  obtain ⟨hne, hx⟩ := List.mem_getLast?_eq_getLast (by rw [hc]; rfl)
  exact h 61 (hx ▸ List.getLast_mem hne) rfl

theorem b64Vals_append {xs ys : List Nat} {vx vy : List Nat}
    (hx : b64Vals xs = some vx) (hy : b64Vals ys = some vy) :
    b64Vals (xs ++ ys) = some (vx ++ vy) := by
  induction xs generalizing vx with
  | nil =>
    simp only [b64Vals] at hx
    cases hx
    simpa using hy
  | cons a t ih =>
    simp only [b64Vals, Option.bind_eq_bind] at hx ⊢
    cases hv : b64Val a with
    | none => rw [hv] at hx; simp at hx
    | some v =>
      rw [hv] at hx
      simp only [Option.some_bind] at hx ⊢
      cases ht : b64Vals t with
      | none => rw [ht] at hx; simp at hx
      | some vt =>
        rw [ht] at hx
        simp only [Option.some_bind, Option.pure_def, Option.some.injEq] at hx
        rw [show t.append ys = t ++ ys from rfl, ih ht]
        simp [← hx]

theorem length_btoa (b : Bytes) : (btoa b).length % 4 = 0 := by
  induction b using btoa.induct with
  | case1 => simp [btoa]
  | case2 a => simp [btoa]
  | case3 a b => simp [btoa]
  | case4 a b c rest ih => simp [btoa]; omega

/-! ## Core decode correctness -/

theorem b64Vals_cons {c v : Nat} {rest vs : List Nat}
    (hc : b64Val c = some v) (hr : b64Vals rest = some vs) :
    b64Vals (c :: rest) = some (v :: vs) := by
  simp [b64Vals, hc, hr]

theorem b64Vals_nil : b64Vals [] = some [] := rfl

theorem b64Assemble_four {a b c : Nat} (ha : a < 256) (hb : b < 256) (hc : c < 256)
    {vs bs : List Nat} (h : b64Assemble vs = some bs) :
    b64Assemble (a / 4 :: (a % 4 * 16 + b / 16) :: (b % 16 * 4 + c / 64) ::
      c % 64 :: vs) = some (a :: b :: c :: bs) := by
  simp only [b64Assemble, h]
  have e1 : a / 4 * 4 + (a % 4 * 16 + b / 16) / 16 = a := by omega
  have e2 : (a % 4 * 16 + b / 16) % 16 * 16 + (b % 16 * 4 + c / 64) / 4 = b := by omega
  have e3 : (b % 16 * 4 + c / 64) % 4 * 64 + c % 64 = c := by omega
  rw [e1, e2, e3]
  rfl

theorem b64_core : ∀ b : Bytes, ValidBytes b →
    (b64Vals (stripTrailingEq (btoa b))).bind b64Assemble = some b := by
  intro b
  induction b using btoa.induct with
  | case1 => intro _; decide
  | case2 a =>
    intro hv
    have ha : a < 256 := hv a (by simp)
    have h1 : a / 4 < 64 := by omega
    have h2 : a % 4 * 16 < 64 := by omega
    have hstrip : stripTrailingEq (btoa [a]) = [b64Code (a / 4), b64Code (a % 4 * 16)] := by
      have hsh : btoa [a] = [b64Code (a / 4), b64Code (a % 4 * 16)] ++ List.replicate 2 61 := by
        simp [btoa, List.replicate]
      rw [hsh]
      apply stripTrailingEq_body
      intro x hx
      simp only [List.mem_cons, List.not_mem_nil, or_false] at hx
      rcases hx with h | h <;> subst h
      · exact (b64Code_props _ h1).1
      · exact (b64Code_props _ h2).1
    rw [hstrip,
      b64Vals_cons (b64Code_props _ h1).2.2.2.2.2
        (b64Vals_cons (b64Code_props _ h2).2.2.2.2.2 b64Vals_nil)]
    show b64Assemble [a / 4, a % 4 * 16] = some [a]
    have e1 : a / 4 * 4 + a % 4 * 16 / 16 = a := by omega
    simp only [b64Assemble]
    rw [e1]
  | case3 a b =>
    intro hv
    have ha : a < 256 := hv a (by simp)
    have hb : b < 256 := hv b (by simp)
    have h1 : a / 4 < 64 := by omega
    have h2 : a % 4 * 16 + b / 16 < 64 := by omega
    have h3 : b % 16 * 4 < 64 := by omega
    have hstrip : stripTrailingEq (btoa [a, b]) =
        [b64Code (a / 4), b64Code (a % 4 * 16 + b / 16), b64Code (b % 16 * 4)] := by
      have hsh : btoa [a, b] =
          [b64Code (a / 4), b64Code (a % 4 * 16 + b / 16), b64Code (b % 16 * 4)] ++
            List.replicate 1 61 := by
        simp [btoa, List.replicate]
      rw [hsh]
      apply stripTrailingEq_body
      intro x hx
      simp only [List.mem_cons, List.not_mem_nil, or_false] at hx
      rcases hx with h | h | h <;> subst h
      · exact (b64Code_props _ h1).1
      · exact (b64Code_props _ h2).1
      · exact (b64Code_props _ h3).1
    rw [hstrip,
      b64Vals_cons (b64Code_props _ h1).2.2.2.2.2
        (b64Vals_cons (b64Code_props _ h2).2.2.2.2.2
          (b64Vals_cons (b64Code_props _ h3).2.2.2.2.2 b64Vals_nil))]
    show b64Assemble [a / 4, a % 4 * 16 + b / 16, b % 16 * 4] = some [a, b]
    have e1 : a / 4 * 4 + (a % 4 * 16 + b / 16) / 16 = a := by omega
    have e2 : (a % 4 * 16 + b / 16) % 16 * 16 + b % 16 * 4 / 4 = b := by omega
    simp only [b64Assemble]
    rw [e1, e2]
  | case4 a b c rest ih =>
    intro hv
    have ha : a < 256 := hv a (by simp)
    have hb : b < 256 := hv b (by simp)
    have hc : c < 256 := hv c (by simp)
    have hrest : ValidBytes rest := fun x hx => hv x (by simp [hx])
    have h1 : a / 4 < 64 := by omega
    have h2 : a % 4 * 16 + b / 16 < 64 := by omega
    have h3 : b % 16 * 4 + c / 64 < 64 := by omega
    have h4 : c % 64 < 64 := by omega
    obtain ⟨vs, hvs, hasm⟩ : ∃ vs, b64Vals (stripTrailingEq (btoa rest)) = some vs ∧
        b64Assemble vs = some rest := by
      have hih := ih hrest
      cases hvv : b64Vals (stripTrailingEq (btoa rest)) with
      | none => rw [hvv] at hih; simp at hih
      | some vs => rw [hvv] at hih; exact ⟨vs, rfl, hih⟩
    have hchunk : btoa (a :: b :: c :: rest) =
        [b64Code (a / 4), b64Code (a % 4 * 16 + b / 16),
         b64Code (b % 16 * 4 + c / 64), b64Code (c % 64)] ++ btoa rest := by
      simp [btoa]
    have hstrip : stripTrailingEq (btoa (a :: b :: c :: rest)) =
        [b64Code (a / 4), b64Code (a % 4 * 16 + b / 16),
         b64Code (b % 16 * 4 + c / 64), b64Code (c % 64)] ++
          stripTrailingEq (btoa rest) := by
      rw [hchunk]
      apply stripTrailingEq_append
      intro x hx
      simp only [List.mem_cons, List.not_mem_nil, or_false] at hx
      rcases hx with h | h | h | h <;> subst h
      · exact (b64Code_props _ h1).1
      · exact (b64Code_props _ h2).1
      · exact (b64Code_props _ h3).1
      · exact (b64Code_props _ h4).1
    rw [hstrip,
      b64Vals_append
        (b64Vals_cons (b64Code_props _ h1).2.2.2.2.2
          (b64Vals_cons (b64Code_props _ h2).2.2.2.2.2
            (b64Vals_cons (b64Code_props _ h3).2.2.2.2.2
              (b64Vals_cons (b64Code_props _ h4).2.2.2.2.2 b64Vals_nil)))) hvs]
    simpa using b64Assemble_four ha hb hc hasm

/-- Decoding with `atob` inverts `btoa` on byte input. -/
theorem atob_btoa (b : Bytes) (hb : ValidBytes b) : atob (btoa b) = some b := by
  obtain ⟨body, k, hk, heq, hmem⟩ := btoa_shape b
  have hbody61 : ∀ x ∈ body, x ≠ 61 := by
    intro x hx
    obtain ⟨n, hn, hcx⟩ := hmem x hx
    exact hcx ▸ (b64Code_props n hn).1
  have hstrip : stripTrailingEq (btoa b) = body := by
    rw [heq]; exact stripTrailingEq_body k hbody61
  have hfilter : (btoa b).filter (fun c => !isB64Ws c) = btoa b := by
    apply List.filter_eq_self.mpr
    intro x hx
    rw [heq] at hx
    rcases List.mem_append.mp hx with h | h
    · obtain ⟨n, hn, hcx⟩ := hmem x h
      subst hcx
      simp [(b64Code_props n hn).2.2.2.2.1]
    · have hx61 : x = 61 := List.eq_of_mem_replicate h
      subst hx61
      decide
  have hlen : (body.length + k) % 4 = 0 := by
    have hlb := length_btoa b
    rw [heq] at hlb
    simpa using hlb
  have hcore := b64_core b hb
  rw [hstrip] at hcore
  rw [heq] at hfilter ⊢
  simp only [atob, hfilter]
  interval_cases k
  · rw [show List.replicate 0 (61 : Nat) = [] from rfl, List.append_nil]
    have c1 : (List.length body % 4 == 0) = true := by simp; omega
    have c2 : ¬ ((List.length body % 4 == 1) = true) := by simp; omega
    rw [if_pos c1, if_neg (getLast?_ne_of_forall hbody61), if_neg c2]
    exact hcore
  · rw [show List.replicate 1 (61 : Nat) = [61] from rfl]
    have c1 : (List.length (body ++ [61]) % 4 == 0) = true := by simp; omega
    have c2 : ¬ ((List.length body % 4 == 1) = true) := by simp; omega
    have hd1 : (body ++ [61]).dropLast = body := by simp
    rw [if_pos c1, if_pos (List.getLast?_concat body), hd1,
      if_neg (getLast?_ne_of_forall hbody61), if_neg c2]
    exact hcore
  · rw [show List.replicate 2 (61 : Nat) = [61, 61] from rfl]
    rw [show body ++ [61, 61] = (body ++ [61]) ++ [61] by simp]
    have c1 : (List.length ((body ++ [61]) ++ [61]) % 4 == 0) = true := by simp; omega
    have c2 : ¬ ((List.length body % 4 == 1) = true) := by simp; omega
    have hd1 : ((body ++ [61]) ++ [61]).dropLast = body ++ [61] := by simp
    have hd2 : (body ++ [61]).dropLast = body := by simp
    rw [if_pos c1, if_pos (List.getLast?_concat (body ++ [61])), hd1,
      if_pos (List.getLast?_concat body), hd2, if_neg c2]
    exact hcore

/-- Round-trip of the repository's base64url codec on byte input. -/
theorem base64Url_roundtrip (b : Bytes) (hb : ValidBytes b) :
    base64UrlDecodeToBytes (base64UrlEncodeBytes b) = some b := by
  obtain ⟨body, k, hk, heq, hmem⟩ := btoa_shape b
  have hbody61 : ∀ x ∈ body, x ≠ 61 := by
    intro x hx
    obtain ⟨n, hn, hcx⟩ := hmem x hx
    exact hcx ▸ (b64Code_props n hn).1
  have hstrip : stripTrailingEq (btoa b) = body := by
    rw [heq]; exact stripTrailingEq_body k hbody61
  have henc : base64UrlEncodeBytes b = b64UrlSubst body := by
    unfold base64UrlEncodeBytes
    rw [stripTrailingEq_subst, hstrip]
  have hns : ∀ c ∈ body, c ≠ 45 ∧ c ≠ 95 := by
    intro c hcb
    obtain ⟨n, hn, hcx⟩ := hmem c hcb
    exact hcx ▸ ⟨(b64Code_props n hn).2.1, (b64Code_props n hn).2.2.1⟩
  have hunsub : b64UrlUnsubst (b64UrlSubst body) = body := b64UrlUnsubst_subst hns
  have hlen : (body.length + k) % 4 = 0 := by
    have hlb := length_btoa b
    rw [heq] at hlb
    simpa using hlb
  have hlsub : (b64UrlSubst body).length = body.length := by simp [b64UrlSubst]
  have hpad : b64Padding (b64UrlSubst body).length = List.replicate k 61 := by
    rw [hlsub]
    unfold b64Padding
    congr 1
    omega
  unfold base64UrlDecodeToBytes
  rw [henc, hunsub, hpad, ← heq]
  exact atob_btoa b hb

/-- The base64url encoding of a byte list is the substitution image of the
`=`-free body of its standard base64. -/
theorem base64UrlEncodeBytes_shape (b : Bytes) :
    ∃ body, (∀ c ∈ body, ∃ n, n < 64 ∧ c = b64Code n) ∧
      base64UrlEncodeBytes b = b64UrlSubst body := by
  obtain ⟨body, k, hk, heq, hmem⟩ := btoa_shape b
  have hbody61 : ∀ x ∈ body, x ≠ 61 := by
    intro x hx
    obtain ⟨n, hn, hcx⟩ := hmem x hx
    exact hcx ▸ (b64Code_props n hn).1
  refine ⟨body, hmem, ?_⟩
  unfold base64UrlEncodeBytes
  rw [stripTrailingEq_subst, heq, stripTrailingEq_body k hbody61]

/-- Characters of a base64url encoding lie in the URL-safe alphabet; in
particular none is a dot (46) or `=` (61), and all are ASCII. -/
theorem base64UrlEncodeBytes_chars (b : Bytes) :
    ∀ c ∈ base64UrlEncodeBytes b, c ≠ 46 ∧ c ≠ 61 ∧ c < 128 := by
  obtain ⟨body, hmem, henc⟩ := base64UrlEncodeBytes_shape b
  intro c hc
  rw [henc] at hc
  obtain ⟨x, hx, hcx⟩ := List.mem_map.mp hc
  obtain ⟨n, hn, hxn⟩ := hmem x hx
  have hprops : b64Code n ≠ 46 ∧ b64Code n ≠ 61 ∧ b64Code n < 128 := by
    clear hcx hxn hx hc henc hmem
    revert n
    decide
  subst hxn
  subst hcx
  split_ifs with h1 h2
  · exact ⟨by omega, by omega, by omega⟩
  · exact ⟨by omega, by omega, by omega⟩
  · exact hprops

set_option maxRecDepth 4000 in
/-- Decoding consumes exactly the UTF-8 encoding of one scalar value and
yields that code point. -/
theorem utf8Decode_encodeChar (c : Nat) (hc : c < 0x110000)
    (hs : ¬ (0xD800 ≤ c ∧ c ≤ 0xDFFF)) (t : Bytes) :
    utf8Decode (utf8EncodeChar c ++ t) = c :: utf8Decode t := by
  by_cases h1 : c < 0x80
  · rw [utf8EncodeChar, if_pos h1]
    rw [show [c] ++ t = c :: t from rfl, utf8Decode.eq_def]
    simp only [if_pos h1]
  · by_cases h2 : c < 0x800
    · rw [utf8EncodeChar, if_neg h1, if_pos h2]
      have a1 : ¬ (0xC0 + c / 64 < 0x80) := by omega
      have a2 : 0xC2 ≤ 0xC0 + c / 64 ∧ 0xC0 + c / 64 ≤ 0xDF := ⟨by omega, by omega⟩
      have a3 : 0x80 ≤ 0x80 + c % 64 ∧ 0x80 + c % 64 ≤ 0xBF := ⟨by omega, by omega⟩
      rw [show [0xC0 + c / 64, 0x80 + c % 64] ++ t =
        (0xC0 + c / 64) :: (0x80 + c % 64) :: t from rfl]
      rw [utf8Decode.eq_def]
      simp only [if_neg a1, if_pos a2, if_pos a3]
      congr 1
      omega
    · by_cases h3 : c < 0x10000
      · rw [utf8EncodeChar, if_neg h1, if_neg h2, if_neg hs, if_pos h3]
        have a1 : ¬ (0xE0 + c / 4096 < 0x80) := by omega
        have a2 : ¬ (0xC2 ≤ 0xE0 + c / 4096 ∧ 0xE0 + c / 4096 ≤ 0xDF) := by omega
        have a3 : 0xE0 ≤ 0xE0 + c / 4096 ∧ 0xE0 + c / 4096 ≤ 0xEF := ⟨by omega, by omega⟩
        have a4 : (if 0xE0 + c / 4096 = 0xE0 then 0xA0 else 0x80) ≤ 0x80 + c / 64 % 64 ∧
            0x80 + c / 64 % 64 ≤ (if 0xE0 + c / 4096 = 0xED then 0x9F else 0xBF) := by
          constructor <;> split_ifs <;> omega
        have a5 : 0x80 ≤ 0x80 + c % 64 ∧ 0x80 + c % 64 ≤ 0xBF := ⟨by omega, by omega⟩
        rw [show [0xE0 + c / 4096, 0x80 + c / 64 % 64, 0x80 + c % 64] ++ t =
          (0xE0 + c / 4096) :: (0x80 + c / 64 % 64) :: (0x80 + c % 64) :: t from rfl]
        rw [utf8Decode.eq_def]
        simp only [if_neg a1, if_neg a2, if_pos a3, if_pos a4, if_pos a5]
        congr 1
        omega
      · have h4 : c < 0x110000 := hc
        rw [utf8EncodeChar, if_neg h1, if_neg h2, if_neg hs, if_neg h3, if_pos h4]
        have a1 : ¬ (0xF0 + c / 262144 < 0x80) := by omega
        have a2 : ¬ (0xC2 ≤ 0xF0 + c / 262144 ∧ 0xF0 + c / 262144 ≤ 0xDF) := by omega
        have a3 : ¬ (0xE0 ≤ 0xF0 + c / 262144 ∧ 0xF0 + c / 262144 ≤ 0xEF) := by omega
        have a4 : 0xF0 ≤ 0xF0 + c / 262144 ∧ 0xF0 + c / 262144 ≤ 0xF4 := ⟨by omega, by omega⟩
        have a5 : (if 0xF0 + c / 262144 = 0xF0 then 0x90 else 0x80) ≤ 0x80 + c / 4096 % 64 ∧
            0x80 + c / 4096 % 64 ≤ (if 0xF0 + c / 262144 = 0xF4 then 0x8F else 0xBF) := by
          constructor <;> split_ifs <;> omega
        have a6 : 0x80 ≤ 0x80 + c / 64 % 64 ∧ 0x80 + c / 64 % 64 ≤ 0xBF := ⟨by omega, by omega⟩
        have a7 : 0x80 ≤ 0x80 + c % 64 ∧ 0x80 + c % 64 ≤ 0xBF := ⟨by omega, by omega⟩
        rw [show [0xF0 + c / 262144, 0x80 + c / 4096 % 64, 0x80 + c / 64 % 64, 0x80 + c % 64]
          ++ t = (0xF0 + c / 262144) :: (0x80 + c / 4096 % 64) :: (0x80 + c / 64 % 64) ::
            (0x80 + c % 64) :: t from rfl]
        rw [utf8Decode.eq_def]
        simp only [if_neg a1, if_neg a2, if_neg a3, if_pos a4, if_pos a5, if_pos a6, if_pos a7]
        congr 1
        omega

/-- UTF-8 decoding inverts UTF-8 encoding on well-formed strings. -/
theorem utf8Decode_encode (s : JsStr) (hscalar : ScalarStr s) :
    utf8Decode (utf8Encode s) = s := by
  induction s with
  | nil => rw [show utf8Encode [] = [] from rfl, utf8Decode]
  | cons c t ih =>
    have hcs := hscalar c (by simp)
    have ht : ScalarStr t := fun x hx => hscalar x (by simp [hx])
    have henc : utf8Encode (c :: t) = utf8EncodeChar c ++ utf8Encode t := by
      simp [utf8Encode]
    rw [henc, utf8Decode_encodeChar c hcs.1 hcs.2, ih ht]

/-- UTF-8 encoding always yields bytes. -/
theorem utf8Encode_valid (s : JsStr) : ValidBytes (utf8Encode s) := by
  intro x hx
  simp only [utf8Encode, List.mem_flatten, List.mem_map] at hx
  obtain ⟨l, ⟨c, hcmem, hl⟩, hxl⟩ := hx
  subst hl
  unfold utf8EncodeChar at hxl
  split_ifs at hxl <;> simp_all <;> omega

/-- On ASCII strings UTF-8 encoding is the identity on code units. -/
theorem utf8Encode_ascii (s : JsStr) (h : ∀ c ∈ s, c < 128) : utf8Encode s = s := by
  induction s with
  | nil => rfl
  | cons c t ih =>
    have hc : c < 128 := h c (by simp)
    have ht := ih fun x hx => h x (by simp [hx])
    simp only [utf8Encode, List.map_cons, List.flatten_cons] at ht ⊢
    rw [ht, utf8EncodeChar, if_pos hc]
    rfl

/-- C5: for every byte sequence `b`, decoding the base64url encoding of
`b` returns exactly `b`: `decodeToBytes(encodeBytes(b)) = b`, where
`encodeBytes` maps through standard base64 with `+`→`-`, `/`→`_` and
trailing `=` stripped, and `decodeToBytes` reverses the substitution and
restores padding to the next multiple of 4 characters. -/
theorem C5_base64url_roundtrip (b : Bytes) (hb : ValidBytes b) :
    base64UrlDecodeToBytes (base64UrlEncodeBytes b) = some b :=
  base64Url_roundtrip b hb

/-- Witness for C5 at the concrete byte sequence `[0, 1, 77, 254, 255]`. -/
theorem C5_base64url_roundtrip_witness :
    ValidBytes [0, 1, 77, 254, 255] ∧
      base64UrlDecodeToBytes (base64UrlEncodeBytes [0, 1, 77, 254, 255]) =
        some [0, 1, 77, 254, 255] :=
  ⟨by decide, C5_base64url_roundtrip [0, 1, 77, 254, 255] (by decide)⟩

theorem isBoundary_nil : IsBoundary [] := Or.inl rfl

theorem isBoundary_cons {c : Nat} (t : JsStr) (h : c = 44 ∨ c = 93 ∨ c = 125) :
    IsBoundary (c :: t) := Or.inr ⟨c, t, rfl, h⟩

theorem natDigits_digits : ∀ n, ∀ c ∈ natDigits n, 48 ≤ c ∧ c ≤ 57 := by
  intro n
  induction n using natDigits.induct with
  | case1 n h =>
    intro c hc
    rw [natDigits, dif_pos h] at hc
    simp only [List.mem_singleton] at hc
    omega
  | case2 n h ih =>
    intro c hc
    rw [natDigits, dif_neg h] at hc
    rcases List.mem_append.mp hc with hm | hm
    · exact ih c hm
    · simp only [List.mem_singleton] at hm
      omega

theorem natDigits_ne_nil (n : Nat) : natDigits n ≠ [] := by
  rw [natDigits]
  split_ifs <;> simp

theorem digitsVal_append_singleton (xs : JsStr) (d : Nat) :
    digitsVal (xs ++ [d]) = digitsVal xs * 10 + (d - 48) := by
  unfold digitsVal
  rw [List.foldl_append]
  rfl

theorem digitsVal_natDigits : ∀ n, digitsVal (natDigits n) = n := by
  intro n
  induction n using natDigits.induct with
  | case1 n h =>
    rw [natDigits, dif_pos h]
    show digitsVal ([] ++ [48 + n]) = n
    rw [digitsVal_append_singleton]
    show 0 * 10 + (48 + n - 48) = n
    omega
  | case2 n h ih =>
    rw [natDigits, dif_neg h, digitsVal_append_singleton, ih]
    omega

theorem takeWhile_append_of_forall {p : Nat → Bool} {xs ys : List Nat}
    (h : ∀ x ∈ xs, p x = true) :
    (xs ++ ys).takeWhile p = xs ++ ys.takeWhile p := by
  induction xs with
  | nil => rfl
  | cons a t ih =>
    rw [List.cons_append, List.takeWhile_cons_of_pos (h a (by simp)),
      ih fun x hx => h x (by simp [hx]), List.cons_append]

theorem takeWhile_boundary {p : Nat → Bool} {ys : List Nat}
    (h : ∀ c t, ys = c :: t → p c = false) : ys.takeWhile p = [] := by
  cases ys with
  | nil => rfl
  | cons c t => rw [List.takeWhile_cons_of_neg (by simp [h c t rfl])]

/-- A boundary never begins with a digit. -/
theorem boundary_not_digit {s : JsStr} (h : IsBoundary s) :
    ∀ c t, s = c :: t → isDigitCode c = false := by
  intro c t hct
  rcases h with h | ⟨c2, t2, heq, hc2⟩
  · simp [hct] at h
  · rw [hct] at heq
    cases heq
    simp only [isDigitCode, decide_eq_false_iff_not]
    omega

/-- Skipping whitespace leaves a string that does not start with
whitespace unchanged. -/
theorem skipWs_cons_of_not_ws (c : Nat) (t : JsStr) (h : isJsonWs c = false) :
    skipWs (c :: t) = c :: t := by
  simp [skipWs, h]

/-- The decimal digits of a number at least `1` never start with the
zero digit. -/
theorem natDigits_head_ne_48 : ∀ n, 1 ≤ n → (natDigits n).head? ≠ some 48 := by
  intro n
  induction n using natDigits.induct with
  | case1 n h =>
    intro hn
    rw [natDigits, dif_pos h]
    simp only [List.head?_cons]
    intro hcon
    injection hcon with h2
    omega
  | case2 n h ih =>
    intro _
    rw [natDigits, dif_neg h]
    cases hnd : natDigits (n / 10) with
    | nil => exact absurd hnd (natDigits_ne_nil _)
    | cons d t =>
      rw [List.cons_append, List.head?_cons]
      have hih := ih (by omega)
      rw [hnd, List.head?_cons] at hih
      exact hih

/-- `parseNumberPos` reads back exactly a serialized natural number when
the following input starts at a boundary: the digit run has no illegal
leading zero and the boundary supplies neither a fraction nor an
exponent marker. -/
theorem parseNumberPos_natDigits (n : Nat) {rest : JsStr} (hrest : IsBoundary rest) :
    parseNumberPos (natDigits n ++ rest) = some (.num (n : Int), rest) := by
  have htake : (natDigits n ++ rest).takeWhile isDigitCode = natDigits n := by
    rw [takeWhile_append_of_forall (fun x hx => by
        simp only [isDigitCode, decide_eq_true_eq]
        exact natDigits_digits n x hx),
      takeWhile_boundary (boundary_not_digit hrest), List.append_nil]
  have hdrop : (natDigits n ++ rest).drop (natDigits n).length = rest :=
    List.drop_left (natDigits n) rest
  have hnolead : ¬ (2 ≤ (natDigits n).length ∧ (natDigits n).head? = some 48) := by
    by_cases hn : n < 10
    · rw [natDigits, dif_pos hn]
      intro hcon
      simp at hcon
    · intro hcon
      exact natDigits_head_ne_48 n (by omega) hcon.2
  have hbnd : ¬ (rest.head? = some 46 ∨ rest.head? = some 101 ∨
      rest.head? = some 69) := by
    rcases hrest with h | ⟨c, t, heq, hc⟩
    · subst h
      simp
    · subst heq
      simp only [List.head?_cons]
      intro hcon
      rcases hcon with h | h | h <;> (injection h with h2; omega)
  rw [parseNumberPos]
  simp only [htake, hdrop]
  rw [if_neg (natDigits_ne_nil _), if_neg hnolead, if_neg hbnd, digitsVal_natDigits]

/-- `parseNumber` reads back exactly the serialized integer when the
following input starts at a boundary. -/
theorem parseNumber_intToStr (i : Int) {rest : JsStr} (hrest : IsBoundary rest) :
    parseNumber (intToStr i ++ rest) = some (.num i, rest) := by
  by_cases hneg : i < 0
  · rw [intToStr, if_pos hneg,
      show (45 :: natDigits i.natAbs) ++ rest = 45 :: (natDigits i.natAbs ++ rest)
        from rfl,
      parseNumber, if_pos (by rw [List.head?_cons])]
    simp only [List.tail_cons]
    rw [parseNumberPos_natDigits i.natAbs hrest]
    show some (jsonNegate (.num (i.natAbs : Int)), rest) = some (.num i, rest)
    rw [show jsonNegate (.num (i.natAbs : Int)) = .num (-(i.natAbs : Int)) from rfl]
    have habs : -((i.natAbs : Nat) : Int) = i := by omega
    rw [habs]
  · rw [intToStr, if_neg hneg]
    obtain ⟨d, t, hd⟩ : ∃ d t, natDigits i.toNat = d :: t := by
      cases hnd : natDigits i.toNat with
      | nil => exact absurd hnd (natDigits_ne_nil _)
      | cons d t => exact ⟨d, t, rfl⟩
    have hdd := natDigits_digits i.toNat d (by rw [hd]; simp)
    rw [parseNumber, if_neg (by
      rw [hd, List.cons_append, List.head?_cons]
      intro hcon
      have : d = 45 := by injection hcon
      omega)]
    rw [parseNumberPos_natDigits i.toNat hrest]
    have htn : ((i.toNat : Nat) : Int) = i := by omega
    rw [htn]

theorem hexVal_hexDigit : ∀ n, n < 16 → hexVal (hexDigit n) = some n := by
  decide

/-- `parseStringRest` reads back exactly the escaped characters of a
string literal up to its closing quote. -/
theorem parseStringRest_roundtrip (s : JsStr) (rest : JsStr) :
    parseStringRest ((s.map escapeChar).flatten ++ 34 :: rest) = some (s, rest) := by
  induction s with
  | nil =>
    rw [show (([] : JsStr).map escapeChar).flatten ++ 34 :: rest = 34 :: rest from rfl]
    rw [parseStringRest.eq_def]
    simp
  | cons c t ih =>
    rw [show ((c :: t).map escapeChar).flatten ++ 34 :: rest =
      escapeChar c ++ ((t.map escapeChar).flatten ++ 34 :: rest) by simp]
    rw [escapeChar]
    by_cases h34 : c = 34
    · subst h34
      rw [if_pos rfl, show [92, 34] ++ ((t.map escapeChar).flatten ++ 34 :: rest) =
        92 :: 34 :: ((t.map escapeChar).flatten ++ 34 :: rest) from rfl,
        parseStringRest.eq_def]
      simp [unescapeChar, ih]
    · rw [if_neg h34]
      by_cases h92 : c = 92
      · subst h92
        rw [if_pos rfl, show [92, 92] ++ ((t.map escapeChar).flatten ++ 34 :: rest) =
          92 :: 92 :: ((t.map escapeChar).flatten ++ 34 :: rest) from rfl,
          parseStringRest.eq_def]
        simp [unescapeChar, ih]
      · rw [if_neg h92]
        by_cases h8 : c = 8
        · subst h8
          rw [if_pos rfl, show [92, 98] ++ ((t.map escapeChar).flatten ++ 34 :: rest) =
            92 :: 98 :: ((t.map escapeChar).flatten ++ 34 :: rest) from rfl,
            parseStringRest.eq_def]
          simp [unescapeChar, ih]
        · rw [if_neg h8]
          by_cases h9 : c = 9
          · subst h9
            rw [if_pos rfl, show [92, 116] ++ ((t.map escapeChar).flatten ++ 34 :: rest) =
              92 :: 116 :: ((t.map escapeChar).flatten ++ 34 :: rest) from rfl,
              parseStringRest.eq_def]
            simp [unescapeChar, ih]
          · rw [if_neg h9]
            by_cases h10 : c = 10
            · subst h10
              rw [if_pos rfl, show [92, 110] ++ ((t.map escapeChar).flatten ++ 34 :: rest) =
                92 :: 110 :: ((t.map escapeChar).flatten ++ 34 :: rest) from rfl,
                parseStringRest.eq_def]
              simp [unescapeChar, ih]
            · rw [if_neg h10]
              by_cases h12 : c = 12
              · subst h12
                rw [if_pos rfl,
                  show [92, 102] ++ ((t.map escapeChar).flatten ++ 34 :: rest) =
                    92 :: 102 :: ((t.map escapeChar).flatten ++ 34 :: rest) from rfl,
                  parseStringRest.eq_def]
                simp [unescapeChar, ih]
              · rw [if_neg h12]
                by_cases h13 : c = 13
                · subst h13
                  rw [if_pos rfl,
                    show [92, 114] ++ ((t.map escapeChar).flatten ++ 34 :: rest) =
                      92 :: 114 :: ((t.map escapeChar).flatten ++ 34 :: rest) from rfl,
                    parseStringRest.eq_def]
                  simp [unescapeChar, ih]
                · rw [if_neg h13]
                  by_cases hctl : c < 32
                  · rw [if_pos hctl]
                    rw [show [92, 117, 48, 48, hexDigit (c / 16), hexDigit (c % 16)] ++
                        ((t.map escapeChar).flatten ++ 34 :: rest) =
                      92 :: 117 :: 48 :: 48 :: hexDigit (c / 16) :: hexDigit (c % 16) ::
                        ((t.map escapeChar).flatten ++ 34 :: rest) from rfl,
                      parseStringRest.eq_def]
                    have hv0 : hexVal 48 = some 0 := rfl
                    have hv1 : hexVal (hexDigit (c / 16)) = some (c / 16) :=
                      hexVal_hexDigit _ (by omega)
                    have hv2 : hexVal (hexDigit (c % 16)) = some (c % 16) :=
                      hexVal_hexDigit _ (by omega)
                    simp [hv0, hv1, hv2, ih]
                    omega
                  · rw [if_neg hctl]
                    rw [show [c] ++ ((t.map escapeChar).flatten ++ 34 :: rest) =
                      c :: ((t.map escapeChar).flatten ++ 34 :: rest) from rfl,
                      parseStringRest.eq_def]
                    simp [h34, h92, ih, show ¬ c < 32 from hctl]

/-- A serialized integer starts with a minus sign or a digit. -/
theorem intToStr_head (i : Int) :
    ∃ d t, intToStr i = d :: t ∧ (d = 45 ∨ (48 ≤ d ∧ d ≤ 57)) := by
  by_cases hneg : i < 0
  · exact ⟨45, _, by rw [intToStr, if_pos hneg], Or.inl rfl⟩
  · obtain ⟨d, t, hd⟩ : ∃ d t, natDigits i.toNat = d :: t := by
      cases hnd : natDigits i.toNat with
      | nil => exact absurd hnd (natDigits_ne_nil _)
      | cons d t => exact ⟨d, t, rfl⟩
    have hdd := natDigits_digits i.toNat d (by rw [hd]; simp)
    exact ⟨d, t, by rw [intToStr, if_neg hneg, hd], Or.inr hdd⟩

/-- Every serialized value starts with a character that is not a closer,
not a separator and not whitespace. -/
theorem stringify_head (v : Json) :
    ∃ c t, jsonStringify v = c :: t ∧ c ≠ 93 ∧ c ≠ 125 ∧ c ≠ 44 ∧
      isJsonWs c = false := by
  have hint : ∀ i : Int, ∃ c t, intToStr i = c :: t ∧ c ≠ 93 ∧ c ≠ 125 ∧ c ≠ 44 ∧
      isJsonWs c = false := by
    intro i
    obtain ⟨d, t, hd, hdd⟩ := intToStr_head i
    refine ⟨d, t, hd, by omega, by omega, by omega, ?_⟩
    simp only [isJsonWs, decide_eq_false_iff_not]
    omega
  cases v with
  | null => exact ⟨110, _, rfl, by omega, by omega, by omega, by decide⟩
  | bool b =>
    cases b with
    | true => exact ⟨116, _, rfl, by omega, by omega, by omega, by decide⟩
    | false => exact ⟨102, _, rfl, by omega, by omega, by omega, by decide⟩
  | num i => exact hint i
  | numR q => exact hint q.floor
  | numInf b => exact ⟨110, _, rfl, by omega, by omega, by omega, by decide⟩
  | str s => exact ⟨34, _, rfl, by omega, by omega, by omega, by decide⟩
  | arr vs => exact ⟨91, _, rfl, by omega, by omega, by omega, by decide⟩
  | obj kvs => exact ⟨123, _, rfl, by omega, by omega, by omega, by decide⟩

theorem contains_iff_mem_keys (kvs : List (JsStr × Json)) (k : JsStr) :
    (kvs.map Prod.fst).contains k = true ↔ k ∈ kvs.map Prod.fst := by
  rw [List.contains_iff_exists_mem_beq]
  constructor
  · rintro ⟨x, hx, hbeq⟩
    rwa [show k = x from by simpa using hbeq]
  · intro h
    exact ⟨k, h, by simp⟩

/-- Folding JavaScript property assignment over fresh keys just appends. -/
theorem foldl_jsObjSet_append (kvs : List (JsStr × Json)) :
    ∀ acc : List (JsStr × Json),
      (∀ k, k ∈ acc.map Prod.fst → k ∉ kvs.map Prod.fst) →
      (kvs.map Prod.fst).Nodup →
      kvs.foldl (fun a kv => jsObjSet a kv.1 kv.2) acc = acc ++ kvs := by
  induction kvs with
  | nil => intro acc _ _; simp
  | cons kv rest ih =>
    intro acc hdisj hnd
    have hknotin : kv.1 ∉ acc.map Prod.fst := by
      intro hmem
      exact hdisj kv.1 hmem (by simp)
    have hset : jsObjSet acc kv.1 kv.2 = acc ++ [kv] := by
      rw [jsObjSet, if_neg (by
        intro hcon
        exact hknotin ((contains_iff_mem_keys acc kv.1).mp hcon))]
    rw [List.foldl_cons, hset]
    have hnd2 : (rest.map Prod.fst).Nodup := by
      simp only [List.map_cons, List.nodup_cons] at hnd
      exact hnd.2
    have hdisj2 : ∀ k, k ∈ (acc ++ [kv]).map Prod.fst → k ∉ rest.map Prod.fst := by
      intro k hk
      simp only [List.map_append, List.mem_append, List.map_cons, List.mem_singleton,
        List.map_nil] at hk
      rcases hk with hk | hk
      · intro hmem
        exact hdisj k hk (by simp [hmem])
      · simp only [List.map_cons, List.nodup_cons] at hnd
        rw [hk]
        exact hnd.1
    rw [ih (acc ++ [kv]) hdisj2 hnd2, List.append_assoc]
    rfl

/-- With distinct keys, rebuilding the parsed members through JavaScript
object construction reproduces the member list. -/
theorem objFromPairs_nodup (kvs : List (JsStr × Json))
    (hnd : (kvs.map Prod.fst).Nodup) : objFromPairs kvs = kvs := by
  rw [objFromPairs, foldl_jsObjSet_append kvs [] (by simp) hnd]
  rfl

theorem jweight_pos (v : Json) : 1 ≤ jweight v := by
  cases v <;> simp [jweight]

theorem jweightItems_pos (vs : List Json) : 1 ≤ jweightItems vs := by
  match vs with
  | [] => simp [jweightItems]
  | [v] => simp [jweightItems]
  | v :: w :: rest => simp [jweightItems]; omega

theorem jweightMembers_pos (kvs : List (JsStr × Json)) : 1 ≤ jweightMembers kvs := by
  match kvs with
  | [] => simp [jweightMembers]
  | [kv] => simp [jweightMembers]
  | kv :: kw :: rest => simp [jweightMembers]; omega

mutual

/-- Parsing inverts serialization for a single well-formed value, at any
boundary continuation and with sufficient fuel. -/
theorem parseValue_stringify (v : Json) (hwf : Json.wfB v = true) (n : Nat)
    (hn : jweight v ≤ n) (rest : JsStr) (hrest : IsBoundary rest) :
    parseValue n (jsonStringify v ++ rest) = some (v, rest) := by
  cases n with
  | zero => exact absurd hn (by have := jweight_pos v; omega)
  | succ fuel =>
    cases v with
    | null =>
      rw [show jsonStringify .null ++ rest = 110 :: 117 :: 108 :: 108 :: rest from rfl,
        parseValue.eq_def]
      simp [skipWs, isJsonWs]
    | bool b =>
      cases b with
      | true =>
        rw [show jsonStringify (.bool true) ++ rest = 116 :: 114 :: 117 :: 101 :: rest
          from rfl, parseValue.eq_def]
        simp [skipWs, isJsonWs]
      | false =>
        rw [show jsonStringify (.bool false) ++ rest = 102 :: 97 :: 108 :: 115 :: 101 :: rest
          from rfl, parseValue.eq_def]
        simp [skipWs, isJsonWs]
    | num i =>
      have hnum := parseNumber_intToStr i hrest
      by_cases hneg : i < 0
      · rw [show jsonStringify (.num i) = intToStr i from rfl, intToStr, if_pos hneg]
        rw [show (45 :: natDigits i.natAbs) ++ rest = 45 :: (natDigits i.natAbs ++ rest)
          from rfl, parseValue.eq_def]
        have hsk := skipWs_cons_of_not_ws 45 (natDigits i.natAbs ++ rest) (by decide)
        simp only [Nat.succ_eq_add_one]
        rw [intToStr, if_pos hneg] at hnum
        simpa [hsk] using hnum
      · obtain ⟨d, t, hd⟩ : ∃ d t, natDigits i.toNat = d :: t := by
          cases hnd : natDigits i.toNat with
          | nil => exact absurd hnd (natDigits_ne_nil _)
          | cons d t => exact ⟨d, t, rfl⟩
        have hdd := natDigits_digits i.toNat d (by rw [hd]; simp)
        rw [show jsonStringify (.num i) = intToStr i from rfl, intToStr, if_neg hneg, hd]
        rw [show (d :: t) ++ rest = d :: (t ++ rest) from rfl, parseValue.eq_def]
        have hsk := skipWs_cons_of_not_ws d (t ++ rest) (by
          simp only [isJsonWs, decide_eq_false_iff_not]
          omega)
        have c1 : ¬ d = 110 := by omega
        have c2 : ¬ d = 116 := by omega
        have c3 : ¬ d = 102 := by omega
        have c4 : ¬ d = 34 := by omega
        have c5 : d = 45 ∨ (48 ≤ d ∧ d ≤ 57) := Or.inr ⟨hdd.1, hdd.2⟩
        rw [intToStr, if_neg hneg, hd] at hnum
        simp only [Nat.succ_eq_add_one, hsk, c1, c2, c3, c4, if_neg, if_false, if_pos c5]
        simpa using hnum
    | numR q =>
      rw [show Json.wfB (.numR q) = false from rfl] at hwf
      exact Bool.noConfusion hwf
    | numInf b =>
      rw [show Json.wfB (.numInf b) = false from rfl] at hwf
      exact Bool.noConfusion hwf
    | str s =>
      rw [show jsonStringify (.str s) ++ rest =
        34 :: ((s.map escapeChar).flatten ++ 34 :: rest) by
          simp [jsonStringify, quoteStr], parseValue.eq_def]
      have hsk := skipWs_cons_of_not_ws 34 ((s.map escapeChar).flatten ++ 34 :: rest)
        (by decide)
      simp [hsk, parseStringRest_roundtrip s rest]
    | arr vs =>
      rw [show jsonStringify (.arr vs) ++ rest =
        91 :: (stringifyItems vs ++ 93 :: rest) by simp [jsonStringify]]
      cases vs with
      | nil =>
        rw [show stringifyItems [] ++ 93 :: rest = 93 :: rest from rfl, parseValue.eq_def]
        simp [skipWs, isJsonWs]
      | cons v0 vs2 =>
        have hwfi : Json.wfItemsB (v0 :: vs2) = true := by
          simpa [Json.wfB] using hwf
        have hne : (v0 :: vs2 : List Json) ≠ [] := by simp
        have hwn : jweightItems (v0 :: vs2) ≤ fuel := by
          have : jweight (.arr (v0 :: vs2)) = 1 + jweightItems (v0 :: vs2) := by
            simp [jweight]
          omega
        have hitems := parseItems_stringify (v0 :: vs2) hne hwfi fuel hwn rest hrest
        obtain ⟨c0, t0, hs0, hc93, hc125, hc44, hcws⟩ := stringify_head v0
        have hhead : ∃ tt, stringifyItems (v0 :: vs2) = c0 :: tt := by
          cases vs2 with
          | nil => exact ⟨t0, by rw [show stringifyItems [v0] = jsonStringify v0 from rfl, hs0]⟩
          | cons v1 vs3 =>
            refine ⟨t0 ++ 44 :: stringifyItems (v1 :: vs3), ?_⟩
            rw [show stringifyItems (v0 :: v1 :: vs3) =
              jsonStringify v0 ++ 44 :: stringifyItems (v1 :: vs3) from rfl, hs0]
            rfl
        obtain ⟨tt, htt⟩ := hhead
        rw [parseValue.eq_def]
        rw [htt] at hitems ⊢
        rw [show ((c0 :: tt) ++ 93 :: rest) = c0 :: (tt ++ 93 :: rest) from rfl]
          at hitems ⊢
        have hsk1 := skipWs_cons_of_not_ws 91 (c0 :: (tt ++ 93 :: rest)) (by decide)
        have hsk2 := skipWs_cons_of_not_ws c0 (tt ++ 93 :: rest) hcws
        simp [hsk1, hsk2, hc93]
        simpa using hitems
    | obj kvs =>
      rw [show jsonStringify (.obj kvs) ++ rest =
        123 :: (stringifyMembers kvs ++ 125 :: rest) by simp [jsonStringify]]
      cases kvs with
      | nil =>
        rw [show stringifyMembers [] ++ 125 :: rest = 125 :: rest from rfl, parseValue.eq_def]
        simp [skipWs, isJsonWs, objFromPairs]
      | cons kv0 kvs2 =>
        have hwfm : Json.wfMembersB (kv0 :: kvs2) = true := by
          have := hwf
          simp only [Json.wfB, Bool.and_eq_true] at this
          exact this.1
        have hnd : ((kv0 :: kvs2).map Prod.fst).Nodup := by
          have := hwf
          simp only [Json.wfB, Bool.and_eq_true, decide_eq_true_eq] at this
          exact this.2
        have hne : (kv0 :: kvs2 : List (JsStr × Json)) ≠ [] := by simp
        have hwn : jweightMembers (kv0 :: kvs2) ≤ fuel := by
          have : jweight (.obj (kv0 :: kvs2)) = 1 + jweightMembers (kv0 :: kvs2) := by
            simp [jweight]
          omega
        have hmembers := parseMembers_stringify (kv0 :: kvs2) hne hwfm fuel hwn rest hrest
        have hhead : ∃ tt, stringifyMembers (kv0 :: kvs2) = 34 :: tt := by
          cases kvs2 with
          | nil =>
            exact ⟨(kv0.1.map escapeChar).flatten ++ [34] ++ 58 :: jsonStringify kv0.2, by
              rw [show stringifyMembers [kv0] = quoteStr kv0.1 ++ 58 :: jsonStringify kv0.2
                from rfl, quoteStr]
              simp⟩
          | cons kv1 kvs3 =>
            refine ⟨(kv0.1.map escapeChar).flatten ++ [34] ++ 58 :: jsonStringify kv0.2 ++
              44 :: stringifyMembers (kv1 :: kvs3), ?_⟩
            rw [show stringifyMembers (kv0 :: kv1 :: kvs3) =
              quoteStr kv0.1 ++ 58 :: jsonStringify kv0.2 ++
                44 :: stringifyMembers (kv1 :: kvs3) from rfl, quoteStr]
            simp
        obtain ⟨tt, htt⟩ := hhead
        rw [parseValue.eq_def]
        rw [htt] at hmembers ⊢
        rw [show ((34 :: tt) ++ 125 :: rest) = 34 :: (tt ++ 125 :: rest) from rfl]
          at hmembers ⊢
        have hsk1 := skipWs_cons_of_not_ws 123 (34 :: (tt ++ 125 :: rest)) (by decide)
        have hsk2 := skipWs_cons_of_not_ws 34 (tt ++ 125 :: rest) (by decide)
        simp [hsk1, hsk2]
        exact ⟨kv0 :: kvs2, by simpa using hmembers,
          objFromPairs_nodup (kv0 :: kvs2) hnd⟩

/-- Parsing inverts serialization for a nonempty array item list followed
by the closing bracket. -/
theorem parseItems_stringify (vs : List Json) (hvs : vs ≠ [])
    (hwf : Json.wfItemsB vs = true) (n : Nat) (hn : jweightItems vs ≤ n)
    (rest : JsStr) (hrest : IsBoundary rest) :
    parseItems n (stringifyItems vs ++ 93 :: rest) = some (vs, rest) := by
  cases n with
  | zero => exact absurd hn (by have := jweightItems_pos vs; omega)
  | succ fuel =>
    match vs with
    | [] => exact absurd rfl hvs
    | [v] =>
      have hwfv : Json.wfB v = true := by
        simpa [Json.wfItemsB] using hwf
      have hwv : jweight v ≤ fuel := by
        have : jweightItems [v] = 1 + jweight v := by simp [jweightItems]
        omega
      have hv := parseValue_stringify v hwfv fuel hwv (93 :: rest)
        (isBoundary_cons rest (by omega))
      rw [show stringifyItems [v] = jsonStringify v from rfl, parseItems.eq_def]
      simp [hv, skipWs, isJsonWs]
    | v :: v1 :: vs2 =>
      have hwfv : Json.wfB v = true := by
        have := hwf
        simp only [Json.wfItemsB, Bool.and_eq_true] at this
        exact this.1
      have hwfrest : Json.wfItemsB (v1 :: vs2) = true := by
        simp only [Json.wfItemsB, Bool.and_eq_true] at hwf ⊢
        exact hwf.2
      have hwv : jweight v ≤ fuel := by
        have h1 : jweightItems (v :: v1 :: vs2) =
            1 + jweight v + jweightItems (v1 :: vs2) := by simp [jweightItems]
        have h2 := jweightItems_pos (v1 :: vs2)
        omega
      have hwrest : jweightItems (v1 :: vs2) ≤ fuel := by
        have h1 : jweightItems (v :: v1 :: vs2) =
            1 + jweight v + jweightItems (v1 :: vs2) := by simp [jweightItems]
        have h2 := jweight_pos v
        omega
      have hv := parseValue_stringify v hwfv fuel hwv
        (44 :: (stringifyItems (v1 :: vs2) ++ 93 :: rest))
        (isBoundary_cons _ (by omega))
      have hrec := parseItems_stringify (v1 :: vs2) (by simp) hwfrest fuel hwrest rest hrest
      rw [show stringifyItems (v :: v1 :: vs2) ++ 93 :: rest =
        jsonStringify v ++ (44 :: (stringifyItems (v1 :: vs2) ++ 93 :: rest)) by
          rw [show stringifyItems (v :: v1 :: vs2) =
            jsonStringify v ++ 44 :: stringifyItems (v1 :: vs2) from rfl]
          simp]
      rw [parseItems.eq_def]
      simp [hv, hrec, skipWs, isJsonWs]

/-- Parsing inverts serialization for a nonempty object member list
followed by the closing brace. -/
theorem parseMembers_stringify (kvs : List (JsStr × Json)) (hkvs : kvs ≠ [])
    (hwf : Json.wfMembersB kvs = true) (n : Nat) (hn : jweightMembers kvs ≤ n)
    (rest : JsStr) (hrest : IsBoundary rest) :
    parseMembers n (stringifyMembers kvs ++ 125 :: rest) = some (kvs, rest) := by
  cases n with
  | zero => exact absurd hn (by have := jweightMembers_pos kvs; omega)
  | succ fuel =>
    match kvs with
    | [] => exact absurd rfl hkvs
    | [kv] =>
      have hwfv : Json.wfB kv.2 = true := by
        have := hwf
        simp only [Json.wfMembersB, Bool.and_eq_true] at this
        exact this.1.2
      have hwv : jweight kv.2 ≤ fuel := by
        have : jweightMembers [kv] = 1 + jweight kv.2 := by simp [jweightMembers]
        omega
      have hv := parseValue_stringify kv.2 hwfv fuel hwv (125 :: rest)
        (isBoundary_cons rest (by omega))
      have hkey := parseStringRest_roundtrip kv.1
        (58 :: (jsonStringify kv.2 ++ 125 :: rest))
      rw [show stringifyMembers [kv] ++ 125 :: rest =
        34 :: ((kv.1.map escapeChar).flatten ++
          34 :: (58 :: (jsonStringify kv.2 ++ 125 :: rest))) by
        rw [show stringifyMembers [kv] = quoteStr kv.1 ++ 58 :: jsonStringify kv.2
          from rfl, quoteStr]
        simp]
      rw [parseMembers.eq_def]
      simp [hkey, hv, skipWs, isJsonWs]
    | kv :: kv1 :: kvs2 =>
      have hwfv : Json.wfB kv.2 = true := by
        have := hwf
        simp only [Json.wfMembersB, Bool.and_eq_true] at this
        exact this.1.2
      have hwfrest : Json.wfMembersB (kv1 :: kvs2) = true := by
        simp only [Json.wfMembersB, Bool.and_eq_true] at hwf ⊢
        exact hwf.2
      have hwv : jweight kv.2 ≤ fuel := by
        have h1 : jweightMembers (kv :: kv1 :: kvs2) =
            1 + jweight kv.2 + jweightMembers (kv1 :: kvs2) := by simp [jweightMembers]
        have h2 := jweightMembers_pos (kv1 :: kvs2)
        omega
      have hwrest : jweightMembers (kv1 :: kvs2) ≤ fuel := by
        have h1 : jweightMembers (kv :: kv1 :: kvs2) =
            1 + jweight kv.2 + jweightMembers (kv1 :: kvs2) := by simp [jweightMembers]
        have h2 := jweight_pos kv.2
        omega
      have hv := parseValue_stringify kv.2 hwfv fuel hwv
        (44 :: (stringifyMembers (kv1 :: kvs2) ++ 125 :: rest))
        (isBoundary_cons _ (by omega))
      have hkey := parseStringRest_roundtrip kv.1
        (58 :: (jsonStringify kv.2 ++ 44 :: (stringifyMembers (kv1 :: kvs2) ++ 125 :: rest)))
      have hrec := parseMembers_stringify (kv1 :: kvs2) (by simp) hwfrest fuel hwrest rest hrest
      rw [show stringifyMembers (kv :: kv1 :: kvs2) ++ 125 :: rest =
        34 :: ((kv.1.map escapeChar).flatten ++
          34 :: (58 :: (jsonStringify kv.2 ++
            44 :: (stringifyMembers (kv1 :: kvs2) ++ 125 :: rest)))) by
        rw [show stringifyMembers (kv :: kv1 :: kvs2) =
          quoteStr kv.1 ++ 58 :: jsonStringify kv.2 ++
            44 :: stringifyMembers (kv1 :: kvs2) from rfl, quoteStr]
        simp]
      rw [parseMembers.eq_def]
      simp [hkey, hv, hrec, skipWs, isJsonWs]

end

mutual

/-- The fuel a value needs is bounded by the length of its serialization. -/
theorem jweight_le_length (v : Json) : jweight v ≤ (jsonStringify v).length := by
  cases v with
  | null => simp [jweight, jsonStringify]
  | bool b => cases b <;> simp [jweight, jsonStringify]
  | num i =>
    have h : (intToStr i).length ≥ 1 := by
      obtain ⟨d, t, hd, _⟩ := intToStr_head i
      simp [hd]
    simpa [jweight, jsonStringify] using h
  | numR q =>
    have h : (intToStr q.floor).length ≥ 1 := by
      obtain ⟨d, t, hd, _⟩ := intToStr_head q.floor
      simp [hd]
    simpa [jweight, jsonStringify] using h
  | numInf b => simp [jweight, jsonStringify]
  | str s => simp [jweight, jsonStringify, quoteStr]
  | arr vs =>
    have hb := jweightItems_le_length vs
    simp only [jweight, jsonStringify, List.length_cons, List.length_append]
    simp
    omega
  | obj kvs =>
    have hb := jweightMembers_le_length kvs
    simp only [jweight, jsonStringify, List.length_cons, List.length_append]
    simp
    omega

/-- Fuel bound for item lists. -/
theorem jweightItems_le_length (vs : List Json) :
    jweightItems vs ≤ (stringifyItems vs).length + 1 := by
  match vs with
  | [] => simp [jweightItems, stringifyItems]
  | [v] =>
    have ha := jweight_le_length v
    rw [show stringifyItems [v] = jsonStringify v from rfl]
    rw [show jweightItems [v] = 1 + jweight v from by simp [jweightItems]]
    omega
  | v :: v1 :: vs2 =>
    have ha := jweight_le_length v
    have hb := jweightItems_le_length (v1 :: vs2)
    rw [show stringifyItems (v :: v1 :: vs2) =
      jsonStringify v ++ 44 :: stringifyItems (v1 :: vs2) from rfl]
    rw [show jweightItems (v :: v1 :: vs2) =
      1 + jweight v + jweightItems (v1 :: vs2) from by simp [jweightItems]]
    simp only [List.length_append, List.length_cons]
    omega

/-- Fuel bound for member lists. -/
theorem jweightMembers_le_length (kvs : List (JsStr × Json)) :
    jweightMembers kvs ≤ (stringifyMembers kvs).length + 1 := by
  match kvs with
  | [] => simp [jweightMembers, stringifyMembers]
  | [kv] =>
    have ha := jweight_le_length kv.2
    rw [show stringifyMembers [kv] = quoteStr kv.1 ++ 58 :: jsonStringify kv.2 from rfl]
    rw [show jweightMembers [kv] = 1 + jweight kv.2 from by simp [jweightMembers]]
    simp only [List.length_append, List.length_cons]
    omega
  | kv :: kv1 :: kvs2 =>
    have ha := jweight_le_length kv.2
    have hb := jweightMembers_le_length (kv1 :: kvs2)
    rw [show stringifyMembers (kv :: kv1 :: kvs2) =
      quoteStr kv.1 ++ 58 :: jsonStringify kv.2 ++
        44 :: stringifyMembers (kv1 :: kvs2) from rfl]
    rw [show jweightMembers (kv :: kv1 :: kvs2) =
      1 + jweight kv.2 + jweightMembers (kv1 :: kvs2) from by simp [jweightMembers]]
    simp only [List.length_append, List.length_cons]
    omega

end

/-- `JSON.parse` inverts `JSON.stringify` on well-formed values. -/
theorem jsonParse_stringify (v : Json) (hwf : WfJson v) :
    jsonParse (jsonStringify v) = some v := by
  have h := parseValue_stringify v hwf ((jsonStringify v).length + 1)
    (by have := jweight_le_length v; omega) [] isBoundary_nil
  rw [List.append_nil] at h
  rw [jsonParse, h]
  rfl

/-! ## Splitting and object lemmas -/

theorem splitOnDot_dotfree (a : JsStr) (h : ∀ c ∈ a, c ≠ 46) :
    splitOnDot a = [a] := by
  induction a with
  | nil => rfl
  | cons x xs ih =>
    rw [splitOnDot, if_neg (h x (by simp)), ih fun c hc => h c (by simp [hc])]

theorem splitOnDot_append_dot (a rest : JsStr) (h : ∀ c ∈ a, c ≠ 46) :
    splitOnDot (a ++ 46 :: rest) = a :: splitOnDot rest := by
  induction a with
  | nil =>
    rw [List.nil_append, splitOnDot, if_pos rfl]
  | cons x xs ih =>
    rw [List.cons_append, splitOnDot, if_neg (h x (by simp)),
      ih fun c hc => h c (by simp [hc])]

/-- A three-part dot-joined string with dot-free parts splits into exactly
those parts. -/
theorem splitOnDot_three (h p s : JsStr) (hh : ∀ c ∈ h, c ≠ 46)
    (hp : ∀ c ∈ p, c ≠ 46) (hs : ∀ c ∈ s, c ≠ 46) :
    splitOnDot (h ++ 46 :: (p ++ 46 :: s)) = [h, p, s] := by
  rw [splitOnDot_append_dot h _ hh, splitOnDot_append_dot p _ hp,
    splitOnDot_dotfree s hs]

theorem jsObjGet_map_set_self (k : JsStr) (v : Json) :
    ∀ kvs : List (JsStr × Json), k ∈ kvs.map Prod.fst →
      jsObjGet (kvs.map fun kv => if kv.1 = k then (k, v) else kv) k = some v := by
  intro kvs
  induction kvs with
  | nil => intro hm; simp at hm
  | cons kv rest ih =>
    intro hm
    by_cases hk : kv.1 = k
    · rw [List.map_cons, if_pos hk, jsObjGet, List.find?_cons_of_pos _ (by simp)]
      rfl
    · have hm2 : k ∈ rest.map Prod.fst := by
        simp only [List.map_cons, List.mem_cons] at hm
        rcases hm with hm | hm
        · exact absurd hm.symm hk
        · exact hm
      rw [List.map_cons, if_neg hk, jsObjGet,
        List.find?_cons_of_neg _ (by simp [hk])]
      have := ih hm2
      rw [jsObjGet] at this
      exact this

theorem jsObjGet_append_self (k : JsStr) (v : Json) :
    ∀ kvs : List (JsStr × Json), k ∉ kvs.map Prod.fst →
      jsObjGet (kvs ++ [(k, v)]) k = some v := by
  intro kvs
  induction kvs with
  | nil =>
    intro _
    rw [List.nil_append, jsObjGet, List.find?_cons_of_pos _ (by simp)]
    rfl
  | cons kv rest ih =>
    intro hm
    have hk : kv.1 ≠ k := fun he => hm (by simp [he])
    rw [List.cons_append, jsObjGet, List.find?_cons_of_neg _ (by simp [hk])]
    have := ih fun h2 => hm (by simp [h2])
    rw [jsObjGet] at this
    exact this

/-- Property assignment followed by lookup of the same key yields the
assigned value. -/
theorem jsObjGet_set_self (kvs : List (JsStr × Json)) (k : JsStr) (v : Json) :
    jsObjGet (jsObjSet kvs k v) k = some v := by
  rw [jsObjSet]
  by_cases hc : (kvs.map Prod.fst).contains k = true
  · rw [if_pos hc]
    exact jsObjGet_map_set_self k v kvs ((contains_iff_mem_keys kvs k).mp hc)
  · rw [if_neg hc]
    exact jsObjGet_append_self k v kvs fun hm =>
      hc ((contains_iff_mem_keys kvs k).mpr hm)

theorem jsObjGet_map_set {k k2 : JsStr} (hne : k2 ≠ k) (v : Json) :
    ∀ kvs : List (JsStr × Json),
      jsObjGet (kvs.map fun kv => if kv.1 = k then (k, v) else kv) k2 =
        jsObjGet kvs k2 := by
  intro kvs
  induction kvs with
  | nil => rfl
  | cons kv rest ih =>
    by_cases hk2 : kv.1 = k2
    · have hkk : kv.1 ≠ k := fun he => hne (hk2 ▸ he)
      rw [List.map_cons, if_neg hkk, jsObjGet, jsObjGet,
        List.find?_cons_of_pos _ (by simp [hk2]),
        List.find?_cons_of_pos _ (by simp [hk2])]
    · rw [List.map_cons, jsObjGet, jsObjGet]
      by_cases hkk : kv.1 = k
      · rw [if_pos hkk, List.find?_cons_of_neg _ (by simp; exact fun he => hne he.symm),
          List.find?_cons_of_neg _ (by simp [hk2])]
        rw [jsObjGet, jsObjGet] at ih
        exact ih
      · rw [if_neg hkk, List.find?_cons_of_neg _ (by simp [hk2]),
          List.find?_cons_of_neg _ (by simp [hk2])]
        rw [jsObjGet, jsObjGet] at ih
        exact ih

theorem jsObjGet_append_single (kvs : List (JsStr × Json)) (k k2 : JsStr) (v : Json)
    (hne : k2 ≠ k) : jsObjGet (kvs ++ [(k, v)]) k2 = jsObjGet kvs k2 := by
  induction kvs with
  | nil =>
    rw [List.nil_append, jsObjGet, jsObjGet,
      List.find?_cons_of_neg _ (by simp; exact fun he => hne he.symm)]
  | cons kv rest ih =>
    by_cases hk2 : kv.1 = k2
    · rw [List.cons_append, jsObjGet, jsObjGet,
        List.find?_cons_of_pos _ (by simp [hk2]),
        List.find?_cons_of_pos _ (by simp [hk2])]
    · rw [List.cons_append, jsObjGet, jsObjGet,
        List.find?_cons_of_neg _ (by simp [hk2]),
        List.find?_cons_of_neg _ (by simp [hk2])]
      rw [jsObjGet, jsObjGet] at ih
      exact ih

/-- Property assignment leaves every other key's value unchanged. -/
theorem jsObjGet_set_other (kvs : List (JsStr × Json)) (k k2 : JsStr) (v : Json)
    (hne : k2 ≠ k) : jsObjGet (jsObjSet kvs k v) k2 = jsObjGet kvs k2 := by
  rw [jsObjSet]
  by_cases hc : (kvs.map Prod.fst).contains k = true
  · rw [if_pos hc]
    exact jsObjGet_map_set hne v kvs
  · rw [if_neg hc]
    exact jsObjGet_append_single kvs k k2 v hne

/-! ## Well-formedness preservation and serializer character bounds -/

theorem keys_jsObjSet (kvs : List (JsStr × Json)) (k : JsStr) (v : Json) :
    (jsObjSet kvs k v).map Prod.fst = kvs.map Prod.fst ∨
      ((jsObjSet kvs k v).map Prod.fst = kvs.map Prod.fst ++ [k] ∧
        k ∉ kvs.map Prod.fst) := by
  rw [jsObjSet]
  by_cases hc : (kvs.map Prod.fst).contains k = true
  · left
    rw [if_pos hc, List.map_map]
    apply List.map_congr_left
    intro kv _
    by_cases hk : kv.1 = k
    · simp [hk]
    · simp [hk]
  · right
    rw [if_neg hc]
    exact ⟨by simp, fun hm => hc ((contains_iff_mem_keys kvs k).mpr hm)⟩

theorem wfMembersB_append (xs ys : List (JsStr × Json)) :
    Json.wfMembersB (xs ++ ys) = (Json.wfMembersB xs && Json.wfMembersB ys) := by
  induction xs with
  | nil => simp [Json.wfMembersB]
  | cons kv rest ih =>
    rw [List.cons_append, Json.wfMembersB, Json.wfMembersB, ih]
    simp [Bool.and_assoc]

theorem wfMembersB_map_set (k : JsStr) (v : Json) (hk : ScalarStr k)
    (hv : Json.wfB v = true) :
    ∀ kvs : List (JsStr × Json), Json.wfMembersB kvs = true →
      Json.wfMembersB (kvs.map fun kv => if kv.1 = k then (k, v) else kv) = true := by
  intro kvs
  induction kvs with
  | nil => intro _; rfl
  | cons kv rest ih =>
    intro hwf
    rw [Json.wfMembersB, Bool.and_eq_true, Bool.and_eq_true] at hwf
    rw [List.map_cons, Json.wfMembersB, Bool.and_eq_true, Bool.and_eq_true]
    refine ⟨?_, ih hwf.2⟩
    by_cases hkk : kv.1 = k
    · rw [if_pos hkk]
      exact ⟨by simpa using hk, hv⟩
    · rw [if_neg hkk]
      exact hwf.1

/-- JavaScript property assignment preserves object well-formedness. -/
theorem wfB_obj_set (kvs : List (JsStr × Json)) (k : JsStr) (v : Json)
    (hwf : Json.wfB (.obj kvs) = true) (hk : ScalarStr k) (hv : Json.wfB v = true) :
    Json.wfB (.obj (jsObjSet kvs k v)) = true := by
  rw [Json.wfB, Bool.and_eq_true, decide_eq_true_eq] at hwf ⊢
  obtain ⟨hm, hnd⟩ := hwf
  constructor
  · rw [jsObjSet]
    by_cases hc : (kvs.map Prod.fst).contains k = true
    · rw [if_pos hc]
      exact wfMembersB_map_set k v hk hv kvs hm
    · rw [if_neg hc, wfMembersB_append, Bool.and_eq_true]
      exact ⟨hm, by simpa [Json.wfMembersB] using ⟨by simpa using hk, hv⟩⟩
  · rcases keys_jsObjSet kvs k v with h | ⟨h, hnm⟩
    · rw [h]; exact hnd
    · rw [h]
      simp only [List.nodup_append, List.nodup_singleton, true_and]
      exact ⟨hnd, by simpa using hnm⟩

theorem ascii_scalar {c : Nat} (h : c < 128) :
    c < 0x110000 ∧ ¬ (0xD800 ≤ c ∧ c ≤ 0xDFFF) := ⟨by omega, by omega⟩

theorem scalar_escapeChar (c : Nat)
    (hc : c < 0x110000 ∧ ¬ (0xD800 ≤ c ∧ c ≤ 0xDFFF)) :
    ∀ x ∈ escapeChar c, x < 0x110000 ∧ ¬ (0xD800 ≤ x ∧ x ≤ 0xDFFF) := by
  intro x hx
  rw [escapeChar] at hx
  split_ifs at hx with h1 h2 h3 h4 h5 h6 h7 h8
  · simp only [List.mem_cons, List.not_mem_nil, or_false] at hx
    rcases hx with h | h <;> subst h <;> exact ascii_scalar (by omega)
  · simp only [List.mem_cons, List.not_mem_nil, or_false] at hx
    rcases hx with h | h <;> subst h <;> exact ascii_scalar (by omega)
  · simp only [List.mem_cons, List.not_mem_nil, or_false] at hx
    rcases hx with h | h <;> subst h <;> exact ascii_scalar (by omega)
  · simp only [List.mem_cons, List.not_mem_nil, or_false] at hx
    rcases hx with h | h <;> subst h <;> exact ascii_scalar (by omega)
  · simp only [List.mem_cons, List.not_mem_nil, or_false] at hx
    rcases hx with h | h <;> subst h <;> exact ascii_scalar (by omega)
  · simp only [List.mem_cons, List.not_mem_nil, or_false] at hx
    rcases hx with h | h <;> subst h <;> exact ascii_scalar (by omega)
  · simp only [List.mem_cons, List.not_mem_nil, or_false] at hx
    rcases hx with h | h <;> subst h <;> exact ascii_scalar (by omega)
  · simp only [List.mem_cons, List.not_mem_nil, or_false] at hx
    have hh : x = 92 ∨ x = 117 ∨ x = 48 ∨ x = 48 ∨
        x = hexDigit (c / 16) ∨ x = hexDigit (c % 16) := by tauto
    rcases hh with h | h | h | h | h | h <;> subst h
    · exact ascii_scalar (by omega)
    · exact ascii_scalar (by omega)
    · exact ascii_scalar (by omega)
    · exact ascii_scalar (by omega)
    · exact ascii_scalar (by rw [hexDigit]; split_ifs <;> omega)
    · exact ascii_scalar (by rw [hexDigit]; split_ifs <;> omega)
  · simp only [List.mem_singleton] at hx
    subst hx
    exact hc

theorem scalar_quoteStr (s : JsStr) (hs : ScalarStr s) : ScalarStr (quoteStr s) := by
  intro x hx
  rw [quoteStr] at hx
  rcases List.mem_cons.mp hx with h | hx2
  · subst h; exact ascii_scalar (by omega)
  rcases List.mem_append.mp hx2 with hx3 | hx3
  · obtain ⟨l, hl, hxl⟩ := List.mem_flatten.mp hx3
    obtain ⟨c, hcm, hcl⟩ := List.mem_map.mp hl
    subst hcl
    exact scalar_escapeChar c (hs c hcm) x hxl
  · have h := List.mem_singleton.mp hx3
    subst h
    exact ascii_scalar (by omega)

theorem scalar_intToStr (i : Int) : ScalarStr (intToStr i) := by
  intro x hx
  rw [intToStr] at hx
  split_ifs at hx
  · simp only [List.mem_cons] at hx
    rcases hx with h | h
    · subst h; exact ascii_scalar (by omega)
    · have := natDigits_digits _ x h
      exact ascii_scalar (by omega)
  · have := natDigits_digits _ x hx
    exact ascii_scalar (by omega)

mutual

/-- Serializations of well-formed values consist of scalar code points. -/
theorem scalar_stringify (v : Json) (hwf : Json.wfB v = true) :
    ScalarStr (jsonStringify v) := by
  cases v with
  | null =>
    intro x hx
    rw [show jsonStringify .null = [110, 117, 108, 108] from rfl] at hx
    exact ascii_scalar
      ((by decide : ∀ c ∈ ([110, 117, 108, 108] : JsStr), c < 128) x hx)
  | bool b =>
    cases b with
    | true =>
      intro x hx
      rw [show jsonStringify (.bool true) = [116, 114, 117, 101] from rfl] at hx
      exact ascii_scalar
        ((by decide : ∀ c ∈ ([116, 114, 117, 101] : JsStr), c < 128) x hx)
    | false =>
      intro x hx
      rw [show jsonStringify (.bool false) = [102, 97, 108, 115, 101] from rfl] at hx
      exact ascii_scalar
        ((by decide : ∀ c ∈ ([102, 97, 108, 115, 101] : JsStr), c < 128) x hx)
  | num i => exact scalar_intToStr i
  | numR q =>
    rw [show Json.wfB (.numR q) = false from rfl] at hwf
    exact Bool.noConfusion hwf
  | numInf b =>
    rw [show Json.wfB (.numInf b) = false from rfl] at hwf
    exact Bool.noConfusion hwf
  | str s =>
    exact scalar_quoteStr s (by simpa [Json.wfB] using hwf)
  | arr vs =>
    intro x hx
    rw [show jsonStringify (.arr vs) = 91 :: (stringifyItems vs ++ [93]) from rfl] at hx
    rcases List.mem_cons.mp hx with h | hx2
    · subst h; exact ascii_scalar (by omega)
    rcases List.mem_append.mp hx2 with hx3 | hx3
    · exact scalar_stringifyItems vs (by simpa [Json.wfB] using hwf) x hx3
    · have h := List.mem_singleton.mp hx3
      subst h
      exact ascii_scalar (by omega)
  | obj kvs =>
    intro x hx
    rw [show jsonStringify (.obj kvs) = 123 :: (stringifyMembers kvs ++ [125])
      from rfl] at hx
    have hm : Json.wfMembersB kvs = true := by
      rw [Json.wfB, Bool.and_eq_true] at hwf
      exact hwf.1
    rcases List.mem_cons.mp hx with h | hx2
    · subst h; exact ascii_scalar (by omega)
    rcases List.mem_append.mp hx2 with hx3 | hx3
    · exact scalar_stringifyMembers kvs hm x hx3
    · have h := List.mem_singleton.mp hx3
      subst h
      exact ascii_scalar (by omega)

/-- Serializations of well-formed item lists consist of scalar code
points. -/
theorem scalar_stringifyItems (vs : List Json) (hwf : Json.wfItemsB vs = true) :
    ScalarStr (stringifyItems vs) := by
  match vs with
  | [] => intro x hx; simp [stringifyItems] at hx
  | [v] =>
    rw [show stringifyItems [v] = jsonStringify v from rfl]
    exact scalar_stringify v (by simpa [Json.wfItemsB] using hwf)
  | v :: v1 :: vs2 =>
    intro x hx
    rw [show stringifyItems (v :: v1 :: vs2) =
      jsonStringify v ++ 44 :: stringifyItems (v1 :: vs2) from rfl] at hx
    rw [Json.wfItemsB, Bool.and_eq_true] at hwf
    rcases List.mem_append.mp hx with h | h2
    · exact scalar_stringify v hwf.1 x h
    rcases List.mem_cons.mp h2 with h | h
    · subst h; exact ascii_scalar (by omega)
    · exact scalar_stringifyItems (v1 :: vs2) hwf.2 x h

/-- Serializations of well-formed member lists consist of scalar code
points. -/
theorem scalar_stringifyMembers (kvs : List (JsStr × Json))
    (hwf : Json.wfMembersB kvs = true) : ScalarStr (stringifyMembers kvs) := by
  match kvs with
  | [] => intro x hx; simp [stringifyMembers] at hx
  | [kv] =>
    intro x hx
    rw [show stringifyMembers [kv] = quoteStr kv.1 ++ 58 :: jsonStringify kv.2
      from rfl] at hx
    rw [Json.wfMembersB, Bool.and_eq_true, Bool.and_eq_true] at hwf
    rcases List.mem_append.mp hx with h | h2
    · exact scalar_quoteStr kv.1 (by simpa using hwf.1.1) x h
    rcases List.mem_cons.mp h2 with h | h
    · subst h; exact ascii_scalar (by omega)
    · exact scalar_stringify kv.2 hwf.1.2 x h
  | kv :: kv1 :: kvs2 =>
    intro x hx
    rw [show stringifyMembers (kv :: kv1 :: kvs2) =
      quoteStr kv.1 ++ 58 :: jsonStringify kv.2 ++
        44 :: stringifyMembers (kv1 :: kvs2) from rfl] at hx
    rw [Json.wfMembersB, Bool.and_eq_true, Bool.and_eq_true] at hwf
    rcases List.mem_append.mp hx with h2 | h3
    · rcases List.mem_append.mp h2 with h | h4
      · exact scalar_quoteStr kv.1 (by simpa using hwf.1.1) x h
      rcases List.mem_cons.mp h4 with h | h
      · subst h; exact ascii_scalar (by omega)
      · exact scalar_stringify kv.2 hwf.1.2 x h
    · rcases List.mem_cons.mp h3 with h | h
      · subst h; exact ascii_scalar (by omega)
      · exact scalar_stringifyMembers (kv1 :: kvs2) hwf.2 x h

end

/-! ## Verification of issued tokens -/

theorem sha256_valid (msg : Bytes) : ValidBytes (sha256 msg) := by
  intro x hx
  simp only [sha256, List.mem_flatten, List.mem_map] at hx
  obtain ⟨l, ⟨w, hw, hl⟩, hxl⟩ := hx
  subst hl
  rw [wordToBytes] at hxl
  simp only [List.mem_cons, List.not_mem_nil, or_false] at hxl
  rcases hxl with h | h | h | h <;> subst h <;> omega

theorem hmacSha256Sign_valid (secret data : JsStr) :
    ValidBytes (hmacSha256Sign secret data) := by
  rw [hmacSha256Sign, hmacSha256]
  exact sha256_valid _

theorem hmacSha256Verify_self (secret data : JsStr) :
    hmacSha256Verify secret data (hmacSha256Sign secret data) = true := by
  simp [hmacSha256Verify]

theorem createJwtHS256_eq (secret : JsStr) (payload : List (JsStr × Json))
    (ttlSeconds now : Int) :
    createJwtHS256 secret payload ttlSeconds now =
      (jwtSigningInput payload ttlSeconds now ++ 46 ::
        base64UrlEncodeBytes (hmacSha256Sign secret (jwtSigningInput payload ttlSeconds now)),
       jwtFullPayload payload ttlSeconds now) := rfl

theorem wfB_jwtFullPayload (payload : List (JsStr × Json)) (ttlSeconds now : Int)
    (hwf : Json.wfB (.obj payload) = true) :
    Json.wfB (.obj (jwtFullPayload payload ttlSeconds now)) = true := by
  rw [jwtFullPayload]
  apply wfB_obj_set
  · apply wfB_obj_set
    · exact hwf
    · decide
    · rfl
  · decide
  · rfl

/-- Verification of an issued token, generalized over the verifying
secret: whenever the verifying secret yields the same MAC over the
signing input as the issuing secret (in particular when the two secrets
are equal), verification succeeds before expiry and returns the full
payload. -/
theorem verifyJwt_createJwt_ok (s1 s2 : JsStr) (payload : List (JsStr × Json))
    (ttl now t : Int) (hwf : Json.wfB (.obj payload) = true)
    (hmac_eq : hmacSha256Sign s2 (jwtSigningInput payload ttl now) =
      hmacSha256Sign s1 (jwtSigningInput payload ttl now))
    (ht : t < now + ttl) :
    verifyJwtHS256 s2 (createJwtHS256 s1 payload ttl now).1 t =
      .ok (.obj (createJwtHS256 s1 payload ttl now).2) := by
  have hfp := wfB_jwtFullPayload payload ttl now hwf
  have hmacv := hmacSha256Sign_valid s1 (jwtSigningInput payload ttl now)
  have htok : (createJwtHS256 s1 payload ttl now).1 =
      base64UrlEncodeJson jwtHeader ++ 46 ::
        (base64UrlEncodeJson (.obj (jwtFullPayload payload ttl now)) ++ 46 ::
          base64UrlEncodeBytes (hmacSha256Sign s1 (jwtSigningInput payload ttl now))) := by
    rw [createJwtHS256_eq, jwtSigningInput]
    simp
  have hsplit : splitOnDot ((createJwtHS256 s1 payload ttl now).1) =
      [base64UrlEncodeJson jwtHeader,
       base64UrlEncodeJson (.obj (jwtFullPayload payload ttl now)),
       base64UrlEncodeBytes (hmacSha256Sign s1 (jwtSigningInput payload ttl now))] := by
    rw [htok]
    apply splitOnDot_three <;>
      exact fun c hc => ((base64UrlEncodeBytes_chars _ c hc).1)
  have hdec_es : base64UrlDecodeToBytes
      (base64UrlEncodeBytes (hmacSha256Sign s1 (jwtSigningInput payload ttl now))) =
      some (hmacSha256Sign s1 (jwtSigningInput payload ttl now)) :=
    base64Url_roundtrip _ hmacv
  have hver : hmacSha256Verify s2
      (base64UrlEncodeJson jwtHeader ++ 46 ::
        base64UrlEncodeJson (.obj (jwtFullPayload payload ttl now)))
      (hmacSha256Sign s1 (jwtSigningInput payload ttl now)) = true := by
    rw [hmacSha256Verify, show (base64UrlEncodeJson jwtHeader ++ 46 ::
      base64UrlEncodeJson (.obj (jwtFullPayload payload ttl now))) =
        jwtSigningInput payload ttl now from rfl, hmac_eq]
    simp
  have hdec_ep : base64UrlDecodeToBytes
      (base64UrlEncodeJson (.obj (jwtFullPayload payload ttl now))) =
      some (utf8Encode (jsonStringify (.obj (jwtFullPayload payload ttl now)))) := by
    rw [base64UrlEncodeJson]
    exact base64Url_roundtrip _ (utf8Encode_valid _)
  have hutf : utf8Decode (utf8Encode (jsonStringify
      (.obj (jwtFullPayload payload ttl now)))) =
      jsonStringify (.obj (jwtFullPayload payload ttl now)) :=
    utf8Decode_encode _ (scalar_stringify _ hfp)
  have hparse : jsonParse (jsonStringify (.obj (jwtFullPayload payload ttl now))) =
      some (.obj (jwtFullPayload payload ttl now)) :=
    jsonParse_stringify _ hfp
  have hexp : jsObjGet (jwtFullPayload payload ttl now) expK =
      some (.num (now + ttl)) := by
    rw [jwtFullPayload]
    exact jsObjGet_set_self _ _ _
  rw [verifyJwtHS256, hsplit]
  simp only [hdec_es, hver, hdec_ep, hutf, hparse, hexp, if_true]
  rw [show (createJwtHS256 s1 payload ttl now).2 = jwtFullPayload payload ttl now
    from rfl]
  rw [if_neg (by omega)]

/-- Verification factors through the MAC check: on any three-part token
the result depends on the header segment only through the MAC over the
signing input; everything after the signature check is a function of the
payload segment and the clock alone. -/
theorem verify_splits_phases (secret : JsStr) (now : Int) (h p s : JsStr)
    (hh : ∀ c ∈ h, c ≠ 46) (hp : ∀ c ∈ p, c ≠ 46) (hs : ∀ c ∈ s, c ≠ 46) :
    verifyJwtHS256 secret (h ++ 46 :: (p ++ 46 :: s)) now =
      match base64UrlDecodeToBytes s with
      | none => .error .invalidCharacterError
      | some sigBytes =>
        if hmacSha256Verify secret (h ++ 46 :: p) sigBytes then
          verifyPayloadPhase p now
        else .error .badSignature := by
  rw [verifyJwtHS256, splitOnDot_three h p s hh hp hs]
  rfl

/-- An issued token checked under a secret whose MAC over the signing
input differs from the issuer's fails with `Bad signature`. -/
theorem verifyJwt_createJwt_badsig (s1 s2 : JsStr) (payload : List (JsStr × Json))
    (ttl now t : Int)
    (hneq : hmacSha256Sign s2 (jwtSigningInput payload ttl now) ≠
      hmacSha256Sign s1 (jwtSigningInput payload ttl now)) :
    verifyJwtHS256 s2 (createJwtHS256 s1 payload ttl now).1 t =
      .error .badSignature := by
  have hmacv := hmacSha256Sign_valid s1 (jwtSigningInput payload ttl now)
  have htok : (createJwtHS256 s1 payload ttl now).1 =
      base64UrlEncodeJson jwtHeader ++ 46 ::
        (base64UrlEncodeJson (.obj (jwtFullPayload payload ttl now)) ++ 46 ::
          base64UrlEncodeBytes (hmacSha256Sign s1 (jwtSigningInput payload ttl now))) := by
    rw [createJwtHS256_eq, jwtSigningInput]
    simp
  have hh1 : ∀ c ∈ base64UrlEncodeJson jwtHeader, c ≠ 46 := fun c hc =>
    (base64UrlEncodeBytes_chars _ c hc).1
  have hp1 : ∀ c ∈ base64UrlEncodeJson (.obj (jwtFullPayload payload ttl now)), c ≠ 46 :=
    fun c hc => (base64UrlEncodeBytes_chars _ c hc).1
  have hs1 : ∀ c ∈ base64UrlEncodeBytes
      (hmacSha256Sign s1 (jwtSigningInput payload ttl now)), c ≠ 46 :=
    fun c hc => (base64UrlEncodeBytes_chars _ c hc).1
  have hver : hmacSha256Verify s2
      (base64UrlEncodeJson jwtHeader ++ 46 ::
        base64UrlEncodeJson (.obj (jwtFullPayload payload ttl now)))
      (hmacSha256Sign s1 (jwtSigningInput payload ttl now)) = false := by
    rw [hmacSha256Verify, show (base64UrlEncodeJson jwtHeader ++ 46 ::
      base64UrlEncodeJson (.obj (jwtFullPayload payload ttl now))) =
        jwtSigningInput payload ttl now from rfl]
    simpa using hneq
  rw [htok, verify_splits_phases s2 t _ _ _ hh1 hp1 hs1]
  simp only [base64Url_roundtrip _ hmacv, hver]
  simp

/-- HMAC key zero-padding: the one-byte key `k` (0x6b) and the two-byte
key `k\0` produce identical padded key blocks, hence identical MACs on
every message. -/
theorem hmacSha256Sign_key_pad (d : JsStr) :
    hmacSha256Sign [107, 0] d = hmacSha256Sign [107] d := by
  rw [hmacSha256Sign, hmacSha256Sign,
    show utf8Encode [107, 0] = [107, 0] from rfl,
    show utf8Encode [107] = [107] from rfl]
  simp only [hmacSha256]
  rw [if_neg (by norm_num), if_neg (by norm_num),
    show ([107, 0] : Bytes) ++ List.replicate (64 - List.length ([107, 0] : Bytes)) 0 =
      [107] ++ List.replicate (64 - List.length ([107] : Bytes)) 0 by decide]

/-! ## The claims -/

/-- C1: for every secret `s`, caller claims mapping `c` and positive
`ttl`, verifying `issue(s, c, ttl).token` with the same secret succeeds
at any verification time `t` before `iat + ttl`, returning claims whose
non-reserved fields equal `c`'s and whose reserved fields satisfy
`iat = now` and `exp = iat + ttl`. -/
theorem C1_verify_of_issue (secret : JsStr) (c : List (JsStr × Json))
    (ttl now t : Int) (hwf : Json.wfB (.obj c) = true) (httl : 0 < ttl)
    (ht : t < now + ttl) :
    verifyJwtHS256 secret (createJwtHS256 secret c ttl now).1 t =
      .ok (.obj (createJwtHS256 secret c ttl now).2) ∧
    jsObjGet (createJwtHS256 secret c ttl now).2 iatK = some (.num now) ∧
    jsObjGet (createJwtHS256 secret c ttl now).2 expK = some (.num (now + ttl)) ∧
    ∀ k, k ≠ iatK → k ≠ expK →
      jsObjGet (createJwtHS256 secret c ttl now).2 k = jsObjGet c k := by
  refine ⟨verifyJwt_createJwt_ok secret secret c ttl now t hwf rfl ht, ?_, ?_, ?_⟩
  · rw [show (createJwtHS256 secret c ttl now).2 = jwtFullPayload c ttl now from rfl,
      jwtFullPayload, jsObjGet_set_other _ _ _ _ (by decide)]
    exact jsObjGet_set_self _ _ _
  · rw [show (createJwtHS256 secret c ttl now).2 = jwtFullPayload c ttl now from rfl,
      jwtFullPayload]
    exact jsObjGet_set_self _ _ _
  · intro k hkiat hkexp
    rw [show (createJwtHS256 secret c ttl now).2 = jwtFullPayload c ttl now from rfl,
      jwtFullPayload, jsObjGet_set_other _ _ _ _ hkexp,
      jsObjGet_set_other _ _ _ _ hkiat]

/-- Witness for C1 at secret `"s"`, claims `{a: 5}`, `ttl = 900`,
issuance time 1000 and verification time 1500. -/
theorem C1_verify_of_issue_witness :
    Json.wfB (.obj [([97], .num 5)]) = true ∧ (0 : Int) < 900 ∧
      (1500 : Int) < 1000 + 900 ∧
    (verifyJwtHS256 [115] (createJwtHS256 [115] [([97], .num 5)] 900 1000).1 1500 =
      .ok (.obj (createJwtHS256 [115] [([97], .num 5)] 900 1000).2) ∧
    jsObjGet (createJwtHS256 [115] [([97], .num 5)] 900 1000).2 iatK =
      some (.num 1000) ∧
    jsObjGet (createJwtHS256 [115] [([97], .num 5)] 900 1000).2 expK =
      some (.num (1000 + 900)) ∧
    ∀ k, k ≠ iatK → k ≠ expK →
      jsObjGet (createJwtHS256 [115] [([97], .num 5)] 900 1000).2 k =
        jsObjGet [([97], .num 5)] k) :=
  ⟨by decide, by decide, by decide,
    C1_verify_of_issue [115] [([97], .num 5)] 900 1000 1500 (by decide) (by decide)
      (by decide)⟩

/-- C2 counterexample: the secrets `"k"` and `"k\0"` are distinct, yet a
token issued under `"k"` verifies successfully under `"k\0"` (HMAC zero-
pads both keys to the same 64-byte block), instead of failing with
`Bad signature`. -/
theorem C2_counterexample :
    ([107] : JsStr) ≠ [107, 0] ∧
    verifyJwtHS256 [107, 0] (createJwtHS256 [107] [] 60 0).1 0 =
      .ok (.obj (createJwtHS256 [107] [] 60 0).2) ∧
    verifyJwtHS256 [107, 0] (createJwtHS256 [107] [] 60 0).1 0 ≠
      .error .badSignature := by
  have hok := verifyJwt_createJwt_ok [107] [107, 0] [] 60 0 0 (by decide)
    (hmacSha256Sign_key_pad (jwtSigningInput [] 60 0)) (by omega)
  exact ⟨by decide, hok, by rw [hok]; exact fun h => Except.noConfusion h⟩

/-- C2 amended: verifying an issued token under a different secret fails
with `Bad signature` unless the two secrets are MAC-equivalent on the
token's signing input (as zero-padding-equivalent keys are), in which
case verification proceeds exactly as under the issuing secret. -/
theorem C2_amended (s1 s2 : JsStr) (c : List (JsStr × Json)) (ttl now t : Int) :
    verifyJwtHS256 s2 (createJwtHS256 s1 c ttl now).1 t = .error .badSignature ∨
    hmacSha256Sign s2 (jwtSigningInput c ttl now) =
      hmacSha256Sign s1 (jwtSigningInput c ttl now) := by
  by_cases heq : hmacSha256Sign s2 (jwtSigningInput c ttl now) =
      hmacSha256Sign s1 (jwtSigningInput c ttl now)
  · exact Or.inr heq
  · exact Or.inl (verifyJwt_createJwt_badsig s1 s2 c ttl now t heq)

/-- C4: an input with any number of dot-separated parts other than three
fails with `Malformed token`, and does so before any cryptographic work —
witness that the result is the same for every secret, so no MAC over the
input is ever consulted. -/
theorem C4_malformed_part_count (token : JsStr)
    (hlen : (splitOnDot token).length ≠ 3) :
    ∀ (secret : JsStr) (now : Int),
      verifyJwtHS256 secret token now = .error .malformedToken := by
  intro secret now
  rw [verifyJwtHS256.eq_def]
  split
  · rename_i h p s heq
    rw [heq] at hlen
    simp at hlen
  · rfl

/-- Witness for C4 at the two-part input `"ab"` (one part) under secret
`"k"`. -/
theorem C4_malformed_part_count_witness :
    (splitOnDot [97, 98]).length ≠ 3 ∧
      verifyJwtHS256 [107] [97, 98] 0 = .error .malformedToken :=
  ⟨by decide, C4_malformed_part_count [97, 98] (by decide) [107] 0⟩

/-- C6: for every caller payload — including one already containing
`iat` or `exp` keys — the full payload embedded by `createJwtHS256`
carries the core's own values `iat = now` and `exp = now + ttlSeconds`
(overwriting any caller-supplied values of those names, in place), and
every other field keeps the caller's value. -/
theorem C6_core_fields_win (secret : JsStr) (c : List (JsStr × Json))
    (ttl now : Int) :
    jsObjGet (createJwtHS256 secret c ttl now).2 iatK = some (.num now) ∧
    jsObjGet (createJwtHS256 secret c ttl now).2 expK = some (.num (now + ttl)) ∧
    ∀ k, k ≠ iatK → k ≠ expK →
      jsObjGet (createJwtHS256 secret c ttl now).2 k = jsObjGet c k := by
  refine ⟨?_, ?_, ?_⟩
  · rw [show (createJwtHS256 secret c ttl now).2 = jwtFullPayload c ttl now from rfl,
      jwtFullPayload, jsObjGet_set_other _ _ _ _ (by decide)]
    exact jsObjGet_set_self _ _ _
  · rw [show (createJwtHS256 secret c ttl now).2 = jwtFullPayload c ttl now from rfl,
      jwtFullPayload]
    exact jsObjGet_set_self _ _ _
  · intro k hkiat hkexp
    rw [show (createJwtHS256 secret c ttl now).2 = jwtFullPayload c ttl now from rfl,
      jwtFullPayload, jsObjGet_set_other _ _ _ _ hkexp,
      jsObjGet_set_other _ _ _ _ hkiat]

/-- C7: every issued token is
`base64url(JSON(header)) "." base64url(JSON(fullClaims)) "." base64url(mac)`
where the header is exactly `{alg: "HS256", typ: "JWT"}` and the MAC is
HMAC-SHA-256, under the caller's secret, of the bytes of the first two
parts joined by a dot — bytes that coincide with the ASCII code units of
the signing input, as the third conjunct states. -/
theorem C7_token_structure (secret : JsStr) (c : List (JsStr × Json))
    (ttl now : Int) :
    (createJwtHS256 secret c ttl now).1 =
      base64UrlEncodeJson jwtHeader ++ 46 ::
        (base64UrlEncodeJson (.obj (jwtFullPayload c ttl now)) ++ 46 ::
          base64UrlEncodeBytes (hmacSha256 (utf8Encode secret)
            (utf8Encode (jwtSigningInput c ttl now)))) ∧
    utf8Encode (jwtSigningInput c ttl now) = jwtSigningInput c ttl now ∧
    jwtHeader = .obj [(algK, .str [72, 83, 50, 53, 54]), (typK, .str [74, 87, 84])] := by
  refine ⟨?_, ?_, rfl⟩
  · rw [createJwtHS256_eq, jwtSigningInput, hmacSha256Sign]
    simp
  · apply utf8Encode_ascii
    intro x hx
    rw [jwtSigningInput] at hx
    rcases List.mem_append.mp hx with h | h2
    · exact (base64UrlEncodeBytes_chars _ x h).2.2
    rcases List.mem_cons.mp h2 with h | h
    · omega
    · exact (base64UrlEncodeBytes_chars _ x h).2.2

/-- C10: verification never decodes or inspects the header segment beyond
using its encoded text as MAC input — on any three-part token the result
equals a MAC check over the signing input followed by a payload phase
that does not see the header, so two tokens differing only in the header
are treated identically up to the MAC check, and any header content is
accepted whenever the signature over the encoded parts matches. -/
theorem C10_header_opaque (secret : JsStr) (now : Int) (h p s : JsStr)
    (hh : ∀ c ∈ h, c ≠ 46) (hp : ∀ c ∈ p, c ≠ 46) (hs : ∀ c ∈ s, c ≠ 46) :
    verifyJwtHS256 secret (h ++ 46 :: (p ++ 46 :: s)) now =
      match base64UrlDecodeToBytes s with
      | none => .error .invalidCharacterError
      | some sigBytes =>
        if hmacSha256Verify secret (h ++ 46 :: p) sigBytes then
          verifyPayloadPhase p now
        else .error .badSignature :=
  verify_splits_phases secret now h p s hh hp hs

/-- Witness for C10 at header segment `"A"`, payload segment `"B"`,
signature segment `"C"`. -/
theorem C10_header_opaque_witness :
    (∀ c ∈ ([65] : JsStr), c ≠ 46) ∧
    verifyJwtHS256 [107] ([65] ++ 46 :: ([66] ++ 46 :: [67])) 0 =
      match base64UrlDecodeToBytes [67] with
      | none => .error .invalidCharacterError
      | some sigBytes =>
        if hmacSha256Verify [107] ([65] ++ 46 :: [66]) sigBytes then
          verifyPayloadPhase [66] 0
        else .error .badSignature :=
  ⟨by decide, C10_header_opaque [107] 0 [65] [66] [67] (by decide) (by decide)
    (by decide)⟩

/-- C3 amended, general form: a token that passes the part-count and
signature checks and whose claims segment parses to a JSON value other
than `null` fails with `Expired token` unless the parsed claims are an
object whose `exp` is a number strictly greater than the current time
(`Infinity` included — the code's `payload.exp <= now` is false for it,
so verification succeeds); a `null` payload instead escapes with a
native `TypeError` (see the C3 counterexample).  The three `hnoexp*`
hypotheses state, one modelled number form each, that no such `exp` is
present. -/
theorem C3_amended_expiry (secret : JsStr) (now : Int) (h p s : JsStr)
    (hh : ∀ c ∈ h, c ≠ 46) (hp : ∀ c ∈ p, c ≠ 46) (hs : ∀ c ∈ s, c ≠ 46)
    (sig : Bytes) (hdec : base64UrlDecodeToBytes s = some sig)
    (hver : hmacSha256Verify secret (h ++ 46 :: p) sig = true)
    (pb : Bytes) (hpdec : base64UrlDecodeToBytes p = some pb)
    (payload : Json) (hparse : jsonParse (utf8Decode pb) = some payload)
    (hnn : payload ≠ .null)
    (hnoexp : ∀ kvs e, payload = .obj kvs →
      jsObjGet kvs expK = some (.num e) → e ≤ now)
    (hnoexpR : ∀ kvs q, payload = .obj kvs →
      jsObjGet kvs expK = some (.numR q) → q ≤ (now : ℚ))
    (hnoexpInf : ∀ kvs, payload = .obj kvs →
      jsObjGet kvs expK ≠ some (.numInf true)) :
    verifyJwtHS256 secret (h ++ 46 :: (p ++ 46 :: s)) now = .error .expiredToken := by
  rw [verify_splits_phases secret now h p s hh hp hs]
  simp only [hdec, hver, if_true]
  rw [verifyPayloadPhase]
  simp only [hpdec, hparse]
  cases payload with
  | null => exact absurd rfl hnn
  | bool b => rfl
  | num i => rfl
  | numR q => rfl
  | numInf b => rfl
  | str s2 => rfl
  | arr vs => rfl
  | obj kvs =>
    cases hobj : jsObjGet kvs expK with
    | none => simp [hobj]
    | some v =>
      cases v with
      | num e =>
        have hle := hnoexp kvs e rfl hobj
        simp only [hobj]
        rw [if_pos hle]
      | numR q =>
        have hle := hnoexpR kvs q rfl hobj
        simp only [hobj]
        rw [if_pos hle]
      | numInf b =>
        cases b with
        | true => exact absurd hobj (hnoexpInf kvs rfl)
        | false => simp [hobj]
      | null => simp [hobj]
      | bool b => simp [hobj]
      | str s2 => simp [hobj]
      | arr vs => simp [hobj]
      | obj kvs2 => simp [hobj]

/-- Witness for the amended C3: a correctly signed token whose claims
parse to the number `1` (no `exp` field) fails with `Expired token`. -/
theorem C3_amended_expiry_witness :
    verifyJwtHS256 [115]
      ([65] ++ 46 :: (base64UrlEncodeBytes [49] ++ 46 ::
        base64UrlEncodeBytes (hmacSha256Sign [115]
          ([65] ++ 46 :: base64UrlEncodeBytes [49])))) 0 =
      .error .expiredToken := by
  have hutf : utf8Decode [49] = [49] := by
    rw [show ([49] : Bytes) = utf8Encode [49] from
      (utf8Encode_ascii [49] (by decide)).symm]
    rw [utf8Decode_encode [49] (by decide),
      utf8Encode_ascii [49] (by decide)]
  exact C3_amended_expiry [115] 0 [65] (base64UrlEncodeBytes [49])
    (base64UrlEncodeBytes (hmacSha256Sign [115]
      ([65] ++ 46 :: base64UrlEncodeBytes [49])))
    (by decide)
    (fun c hc => (base64UrlEncodeBytes_chars _ c hc).1)
    (fun c hc => (base64UrlEncodeBytes_chars _ c hc).1)
    (hmacSha256Sign [115] ([65] ++ 46 :: base64UrlEncodeBytes [49]))
    (base64Url_roundtrip _ (hmacSha256Sign_valid _ _))
    (hmacSha256Verify_self _ _)
    [49]
    (base64Url_roundtrip [49] (by decide))
    (.num 1)
    (by rw [hutf]; rfl)
    (fun hcon => Json.noConfusion hcon)
    (fun kvs e hcon => Json.noConfusion hcon)
    (fun kvs q hcon => Json.noConfusion hcon)
    (fun kvs hcon => Json.noConfusion hcon)

/-- C3 counterexample: a token that passes the part-count and signature
checks and whose claims segment is the JSON value `null` has no `exp`
field, so the claim demands `Expired token`; the code instead throws a
native `TypeError` when it reads `payload.exp` off `null`. -/
theorem C3_counterexample :
    verifyJwtHS256 [115] c3Token 0 = .error .typeError ∧
      JwtError.typeError ≠ JwtError.expiredToken := by
  constructor
  · have hh1 : ∀ c ∈ base64UrlEncodeJson jwtHeader, c ≠ 46 := fun c hc =>
      (base64UrlEncodeBytes_chars _ c hc).1
    have hp1 : ∀ c ∈ c3PayloadSeg, c ≠ 46 := fun c hc =>
      (base64UrlEncodeBytes_chars _ c hc).1
    have hs1 : ∀ c ∈ base64UrlEncodeBytes (hmacSha256Sign [115]
        (base64UrlEncodeJson jwtHeader ++ 46 :: c3PayloadSeg)), c ≠ 46 := fun c hc =>
      (base64UrlEncodeBytes_chars _ c hc).1
    rw [c3Token, verify_splits_phases [115] 0 _ _ _ hh1 hp1 hs1]
    simp only [base64Url_roundtrip _ (hmacSha256Sign_valid [115]
      (base64UrlEncodeJson jwtHeader ++ 46 :: c3PayloadSeg)),
      hmacSha256Verify_self, if_true]
    rw [verifyPayloadPhase, c3PayloadSeg]
    simp only [base64Url_roundtrip [110, 117, 108, 108] (by decide)]
    have hutf : utf8Decode [110, 117, 108, 108] = [110, 117, 108, 108] := by
      rw [show ([110, 117, 108, 108] : Bytes) = utf8Encode [110, 117, 108, 108] from
        (utf8Encode_ascii [110, 117, 108, 108] (by decide)).symm]
      rw [utf8Decode_encode [110, 117, 108, 108] (by decide),
        utf8Encode_ascii [110, 117, 108, 108] (by decide)]
    rw [hutf]
    rw [show jsonParse [110, 117, 108, 108] = some .null from rfl]
  · decide

/-- C8 amended, general form: on a token that passes the part-count and
signature checks, a claims segment that decodes but does not parse as
JSON fails with the native `SyntaxError` thrown by `JSON.parse`, and a
claims segment that does not even base64-decode fails with the native
`InvalidCharacterError` thrown by `atob` — both failures distinct from
the `Error("Malformed token")` the code itself throws for a wrong part
count. -/
theorem C8_amended_parse_failure (secret : JsStr) (now : Int) (h p s : JsStr)
    (hh : ∀ c ∈ h, c ≠ 46) (hp : ∀ c ∈ p, c ≠ 46) (hs : ∀ c ∈ s, c ≠ 46)
    (sig : Bytes) (hdec : base64UrlDecodeToBytes s = some sig)
    (hver : hmacSha256Verify secret (h ++ 46 :: p) sig = true) :
    (∀ pb, base64UrlDecodeToBytes p = some pb → jsonParse (utf8Decode pb) = none →
      verifyJwtHS256 secret (h ++ 46 :: (p ++ 46 :: s)) now = .error .syntaxError) ∧
    (base64UrlDecodeToBytes p = none →
      verifyJwtHS256 secret (h ++ 46 :: (p ++ 46 :: s)) now =
        .error .invalidCharacterError) := by
  rw [verify_splits_phases secret now h p s hh hp hs]
  simp only [hdec, hver, if_true]
  constructor
  · intro pb hpdec hparse
    rw [verifyPayloadPhase]
    simp only [hpdec, hparse]
  · intro hpdec
    rw [verifyPayloadPhase]
    simp only [hpdec]

/-- Witness for the amended C8: a correctly signed token whose claims
segment decodes to the text `{` fails with the native `SyntaxError`. -/
theorem C8_amended_parse_failure_witness :
    verifyJwtHS256 [115]
      ([65] ++ 46 :: (base64UrlEncodeBytes [123] ++ 46 ::
        base64UrlEncodeBytes (hmacSha256Sign [115]
          ([65] ++ 46 :: base64UrlEncodeBytes [123])))) 0 =
      .error .syntaxError := by
  have hutf : utf8Decode [123] = [123] := by
    rw [show ([123] : Bytes) = utf8Encode [123] from
      (utf8Encode_ascii [123] (by decide)).symm]
    rw [utf8Decode_encode [123] (by decide),
      utf8Encode_ascii [123] (by decide)]
  exact (C8_amended_parse_failure [115] 0 [65] (base64UrlEncodeBytes [123])
    (base64UrlEncodeBytes (hmacSha256Sign [115]
      ([65] ++ 46 :: base64UrlEncodeBytes [123])))
    (by decide)
    (fun c hc => (base64UrlEncodeBytes_chars _ c hc).1)
    (fun c hc => (base64UrlEncodeBytes_chars _ c hc).1)
    (hmacSha256Sign [115] ([65] ++ 46 :: base64UrlEncodeBytes [123]))
    (base64Url_roundtrip _ (hmacSha256Sign_valid _ _))
    (hmacSha256Verify_self _ _)).1
    [123]
    (base64Url_roundtrip [123] (by decide))
    (by rw [hutf]; rfl)

/-- C8 counterexample: a three-part token whose signature verifies but
whose claims segment decodes to `{` fails with the native `SyntaxError`
from `JSON.parse`, not with the code's `Error("Malformed token")`. -/
theorem C8_counterexample :
    verifyJwtHS256 [115] c8Token 0 = .error .syntaxError ∧
      JwtError.syntaxError ≠ JwtError.malformedToken := by
  constructor
  · have hh1 : ∀ c ∈ base64UrlEncodeJson jwtHeader, c ≠ 46 := fun c hc =>
      (base64UrlEncodeBytes_chars _ c hc).1
    have hp1 : ∀ c ∈ c8PayloadSeg, c ≠ 46 := fun c hc =>
      (base64UrlEncodeBytes_chars _ c hc).1
    have hs1 : ∀ c ∈ base64UrlEncodeBytes (hmacSha256Sign [115]
        (base64UrlEncodeJson jwtHeader ++ 46 :: c8PayloadSeg)), c ≠ 46 := fun c hc =>
      (base64UrlEncodeBytes_chars _ c hc).1
    rw [c8Token, verify_splits_phases [115] 0 _ _ _ hh1 hp1 hs1]
    simp only [base64Url_roundtrip _ (hmacSha256Sign_valid [115]
      (base64UrlEncodeJson jwtHeader ++ 46 :: c8PayloadSeg)),
      hmacSha256Verify_self, if_true]
    rw [verifyPayloadPhase, c8PayloadSeg]
    simp only [base64Url_roundtrip [123] (by decide)]
    have hutf : utf8Decode [123] = [123] := by
      rw [show ([123] : Bytes) = utf8Encode [123] from
        (utf8Encode_ascii [123] (by decide)).symm]
      rw [utf8Decode_encode [123] (by decide),
        utf8Encode_ascii [123] (by decide)]
    rw [hutf]
    rw [show jsonParse [123] = none from rfl]
  · decide
